import Mathlib

/-!
Verification of the `tts-accelerator` core (files
`app/services/tts_balancer.py` and `app/services/tts_cache.py`) against its
natural-language specification.

The Python source is shallowly embedded: every mutating method becomes a pure
function from states to states, Python `float` time and latency values are
modelled as rationals, Python's stable `list.sort` / `sorted` is modelled by
the stable `List.insertionSort`, and the `asyncio` lock discipline of the
source (each `async with self._lock:` block is atomic with respect to other
tasks, because the event loop is single-threaded and the section contains no
await) is reflected by making each such critical section a single step of a
transition system.  Results of outbound HTTP calls are inputs of the model
(oracles), since they are produced by the environment.
-/

/-! ## SHA-256 over UTF-8 bytes, as used by `hashlib.sha256(content.encode())`.
All 32-bit machine arithmetic is `Nat` arithmetic reduced `% 2^32`. -/

namespace SHA256

/-- UTF-8 encoding of a single character (`str.encode` in the source). -/
def utf8Char (c : Char) : List Nat :=
  let n := c.toNat
  if n < 0x80 then [n]
  else if n < 0x800 then [0xC0 ||| (n >>> 6), 0x80 ||| (n &&& 0x3F)]
  else if n < 0x10000 then
    [0xE0 ||| (n >>> 12), 0x80 ||| ((n >>> 6) &&& 0x3F), 0x80 ||| (n &&& 0x3F)]
  else
    [0xF0 ||| (n >>> 18), 0x80 ||| ((n >>> 12) &&& 0x3F),
     0x80 ||| ((n >>> 6) &&& 0x3F), 0x80 ||| (n &&& 0x3F)]

/-- UTF-8 encoding of a string as a byte list. -/
def utf8Encode (s : String) : List Nat := (s.toList.map utf8Char).flatten

/-- Addition modulo `2^32`. -/
def add32 (a b : Nat) : Nat := (a + b) % 2 ^ 32

/-- Right rotation of a 32-bit word. -/
def rotr (n x : Nat) : Nat := ((x >>> n) ||| (x <<< (32 - n))) % 2 ^ 32

def bsig0 (x : Nat) : Nat := rotr 2 x ^^^ rotr 13 x ^^^ rotr 22 x

def bsig1 (x : Nat) : Nat := rotr 6 x ^^^ rotr 11 x ^^^ rotr 25 x

def ssig0 (x : Nat) : Nat := rotr 7 x ^^^ rotr 18 x ^^^ (x >>> 3)

def ssig1 (x : Nat) : Nat := rotr 17 x ^^^ rotr 19 x ^^^ (x >>> 10)

def ch (x y z : Nat) : Nat := (x &&& y) ^^^ ((x ^^^ (2 ^ 32 - 1)) &&& z)

def maj (x y z : Nat) : Nat := (x &&& y) ^^^ (x &&& z) ^^^ (y &&& z)

/-- The 64 SHA-256 round constants. -/
def K : List Nat :=
  [1116352408, 1899447441, 3049323471, 3921009573, 961987163,
   1508970993, 2453635748, 2870763221, 3624381080, 310598401,
   607225278, 1426881987, 1925078388, 2162078206, 2614888103,
   3248222580, 3835390401, 4022224774, 264347078, 604807628,
   770255983, 1249150122, 1555081692, 1996064986, 2554220882,
   2821834349, 2952996808, 3210313671, 3336571891, 3584528711,
   113926993, 338241895, 666307205, 773529912, 1294757372,
   1396182291, 1695183700, 1986661051, 2177026350, 2456956037,
   2730485921, 2820302411, 3259730800, 3345764771, 3516065817,
   3600352804, 4094571909, 275423344, 430227734, 506948616,
   659060556, 883997877, 958139571, 1322822218, 1537002063,
   1747873779, 1955562222, 2024104815, 2227730452, 2361852424,
   2428436474, 2756734187, 3204031479, 3329325298]

/-- Initial hash state. -/
def H0 : List Nat :=
  [1779033703, 3144134277, 1013904242, 2773480762,
   1359893119, 2600822924, 528734635, 1541459225]

/-- Big-endian byte expansion of `n` on `k` bytes. -/
def toBytesBE (k n : Nat) : List Nat :=
  (List.range k).map fun i => (n >>> (8 * (k - 1 - i))) % 256

/-- FIPS 180-4 message padding: `0x80`, zeros to 56 mod 64, 64-bit bit length. -/
def padMessage (m : List Nat) : List Nat :=
  m ++ [0x80] ++ List.replicate ((64 - (m.length + 9) % 64) % 64) 0
    ++ toBytesBE 8 (m.length * 8)

/-- Group a byte list into big-endian 32-bit words. -/
def toWords : List Nat → List Nat
  | a :: b :: c :: d :: rest =>
      (((a * 256 + b) * 256 + c) * 256 + d) :: toWords rest
  | _ => []

/-- Split a word list into 16-word blocks (`go` is fueled by the length). -/
def chunks16Go : Nat → List Nat → List (List Nat)
  | 0, _ => []
  | _, [] => []
  | fuel + 1, l => l.take 16 :: chunks16Go fuel (l.drop 16)

def chunks16 (l : List Nat) : List (List Nat) := chunks16Go l.length l

/-- The 64-entry message schedule of one block. -/
def schedule (block : List Nat) : List Nat :=
  (List.range 64).foldl
    (fun W t =>
      if t < 16 then W ++ [block.getD t 0]
      else
        W ++ [add32 (add32 (ssig1 (W.getD (t - 2) 0)) (W.getD (t - 7) 0))
                (add32 (ssig0 (W.getD (t - 15) 0)) (W.getD (t - 16) 0))])
    []

/-- One round of the compression function on the eight working variables. -/
def round (W : List Nat) (st : List Nat) (t : Nat) : List Nat :=
  match st with
  | [a, b, c, d, e, f, g, h] =>
      let T1 := add32 h (add32 (bsig1 e)
        (add32 (ch e f g) (add32 (K.getD t 0) (W.getD t 0))))
      let T2 := add32 (bsig0 a) (maj a b c)
      [add32 T1 T2, a, b, c, add32 d T1, e, f, g]
  | other => other

/-- Compress one 16-word block into the running hash state. -/
def compressBlock (H : List Nat) (block : List Nat) : List Nat :=
  let W := schedule block
  List.zipWith add32 H ((List.range 64).foldl (round W) H)

def hexDigit (n : Nat) : Char :=
  if n < 10 then Char.ofNat (48 + n) else Char.ofNat (87 + n)

/-- Lower-case hexadecimal rendering of a 32-bit word. -/
def wordHex (w : Nat) : List Char :=
  (List.range 8).map fun i => hexDigit ((w >>> (4 * (7 - i))) % 16)

/-- `hashlib.sha256(s.encode()).hexdigest()`. -/
def sha256hex (s : String) : String :=
  let H := (chunks16 (toWords (padMessage (utf8Encode s)))).foldl compressBlock H0
  String.mk (H.map wordHex).flatten

end SHA256

/-! ## `app/services/tts_balancer.py` -/

namespace TTSBalancer

/-- The audio payload returned by a TTS endpoint (`response.content`), an
opaque byte blob. -/
abbrev Audio := List Nat

/-- The mutable record of the dataclass `TTSEndpoint`.  Python `float` fields
are rationals, `current_load` is a Python `int` (`Int` here, so that the
claim that it never goes negative is a statement, not a typing artifact). -/
structure TTSEndpoint where
  url : String
  is_available : Bool := true
  current_load : Int := 0
  last_request_time : ℚ := 0
  error_count : Nat := 0
  total_requests : Nat := 0
  total_response_time : ℚ := 0
deriving DecidableEq

instance : Inhabited TTSEndpoint := ⟨{ url := "" }⟩

/-- Property `TTSEndpoint.avg_response_time`. -/
def avg_response_time (e : TTSEndpoint) : ℚ :=
  if e.total_requests = 0 then 0 else e.total_response_time / e.total_requests

/-- `TTSEndpoint.record_success`. -/
def record_success (e : TTSEndpoint) (response_time : ℚ) : TTSEndpoint :=
  { e with total_requests := e.total_requests + 1
           total_response_time := e.total_response_time + response_time
           error_count := 0
           is_available := true }

/-- `TTSEndpoint.record_failure`: increment the consecutive-error counter and
mark the endpoint unavailable once it reaches 3. -/
def record_failure (e : TTSEndpoint) : TTSEndpoint :=
  let e' := { e with error_count := e.error_count + 1 }
  if 3 ≤ e'.error_count then { e' with is_available := false } else e'

/-- The sort key of `_select_endpoint`: Python's
`available.sort(key=lambda ep: (ep.current_load, ep.avg_response_time))`
orders by this lexicographic pair. -/
def loadKeyLe (a b : TTSEndpoint) : Prop :=
  a.current_load < b.current_load ∨
    (a.current_load = b.current_load ∧ avg_response_time a ≤ avg_response_time b)

instance : DecidableRel loadKeyLe := fun a b => by
  unfold loadKeyLe; infer_instance

instance : IsTotal TTSEndpoint loadKeyLe :=
  ⟨fun a b => by
    rcases lt_trichotomy a.current_load b.current_load with h | h | h
    · exact Or.inl (Or.inl h)
    · rcases le_total (avg_response_time a) (avg_response_time b) with h2 | h2
      · exact Or.inl (Or.inr ⟨h, h2⟩)
      · exact Or.inr (Or.inr ⟨h.symm, h2⟩)
    · exact Or.inr (Or.inl h)⟩

instance : IsTrans TTSEndpoint loadKeyLe :=
  ⟨fun a b c hab hbc => by
    rcases hab with h | ⟨h1, h2⟩ <;> rcases hbc with h' | ⟨h1', h2'⟩
    · exact Or.inl (h.trans h')
    · exact Or.inl (h1' ▸ h)
    · exact Or.inl (h1 ▸ h')
    · exact Or.inr ⟨h1.trans h1', h2.trans h2'⟩⟩

/-- The reset applied to every endpoint inside `_select_endpoint` when all
endpoints are unavailable. -/
def resetEndpoint (e : TTSEndpoint) : TTSEndpoint :=
  { e with is_available := true, error_count := 0 }

/-- `TTSLoadBalancer._select_endpoint`, as a function from the pool to the
selected endpoint and the pool after the call.  In the branch where every
endpoint is unavailable, the source writes `available = self.endpoints` and
then `available.sort(...)`: the sort is applied, in place, to the pool list
itself, so the updated pool is the sorted one.  In the other branch
`available` is a fresh list built by a comprehension and the pool is left
alone.  Python's `list.sort` is stable, which `List.insertionSort` matches. -/
def select_endpoint (eps : List TTSEndpoint) :
    Option TTSEndpoint × List TTSEndpoint :=
  let available := eps.filter (·.is_available)
  if available.isEmpty then
    let pool := eps.map resetEndpoint
    let sorted := List.insertionSort loadKeyLe pool
    (sorted.head?, sorted)
  else
    ((List.insertionSort loadKeyLe available).head?, eps)

/-- The result of one outbound HTTP POST performed by `_do_request`, an input
of the model: the body and measured latency on a 2xx response, or the message
of the raised exception otherwise. -/
inductive AttemptOutcome where
  | success (audio : Audio) (response_time : ℚ)
  | failure (msg : String)
deriving DecidableEq

def AttemptOutcome.isSuccess : AttemptOutcome → Bool
  | .success _ _ => true
  | .failure _ => false

/-- First half of `_do_request`: increment `current_load` and stamp
`last_request_time` before issuing the HTTP call. -/
def do_request_enter (e : TTSEndpoint) (now : ℚ) : TTSEndpoint :=
  { e with current_load := e.current_load + 1, last_request_time := now }

/-- The `finally:` block of `_do_request`: decrement `current_load` on every
exit path. -/
def do_request_exit (e : TTSEndpoint) : TTSEndpoint :=
  { e with current_load := e.current_load - 1 }

/-- `TTSLoadBalancer._do_request` acting on the chosen endpoint record: enter,
record the outcome, and leave through the `finally:` block.  The per-endpoint
semaphore only delays scheduling and does not change any endpoint field, and
the request body and error-message formatting are elided. -/
def do_request (e : TTSEndpoint) (now : ℚ) (out : AttemptOutcome) :
    TTSEndpoint × Except String Audio :=
  let e1 := do_request_enter e now
  match out with
  | .success audio rt => (do_request_exit (record_success e1 rt), .ok audio)
  | .failure msg => (do_request_exit (record_failure e1), .error msg)

end TTSBalancer

namespace TTSBalancer

/-- `_select_endpoint` as used by `request`: the source returns the selected
endpoint object, an alias into the pool list, and `_do_request` mutates the
pool through that alias.  In the functional model the alias is rendered as
the position of the selected endpoint in the updated pool (stability of the
sort makes this the first position holding the selected record). -/
def select_endpoint_idx (eps : List TTSEndpoint) :
    Option Nat × List TTSEndpoint :=
  match select_endpoint eps with
  | (none, eps') => (none, eps')
  | (some ep, eps') => (eps'.findIdx? (fun e => decide (e = ep)), eps')

/-- Everything observable about one `TTSLoadBalancer.request` call: its value,
the pool it leaves behind, how many `_do_request` attempts and
`_select_endpoint` calls it performed, and the backoff sleeps (in seconds) it
executed, in order. -/
structure RequestOutcome where
  result : Except String Audio
  endpoints : List TTSEndpoint
  attempts : Nat
  selections : Nat
  sleeps : List ℚ

/-- The `for attempt in range(self.retry_count + 1):` loop of
`TTSLoadBalancer.request`.  `oracle` supplies the outcome of the HTTP call of
each attempt and `clock` the wall-clock time at each attempt; `fuel` counts
the remaining iterations (`retry_count + 1 - attempt`).  Falling out of the
loop raises `All TTS request attempts failed`; a selection that returns no
endpoint raises `No available TTS endpoints` at once. -/
def requestGo (oracle : Nat → AttemptOutcome) (clock : Nat → ℚ)
    (retry_count : Nat) :
    Nat → Nat → List TTSEndpoint → Nat → Nat → List ℚ → RequestOutcome
  | 0, _, eps, attempts, selections, sleeps =>
      ⟨.error "All TTS request attempts failed", eps, attempts, selections,
       sleeps⟩
  | fuel + 1, attempt, eps, attempts, selections, sleeps =>
      match select_endpoint_idx eps with
      | (none, eps') =>
          ⟨.error "No available TTS endpoints", eps', attempts,
           selections + 1, sleeps⟩
      | (some i, eps') =>
          match do_request (eps'.getD i default) (clock attempt)
              (oracle attempt) with
          | (ep', .ok audio) =>
              ⟨.ok audio, eps'.set i ep', attempts + 1, selections + 1, sleeps⟩
          | (ep', .error _) =>
              requestGo oracle clock retry_count fuel (attempt + 1)
                (eps'.set i ep') (attempts + 1) (selections + 1)
                (sleeps ++ if attempt < retry_count
                  then [(1 : ℚ) / 2 * 2 ^ attempt] else [])

/-- `TTSLoadBalancer.request(text, model)`.  The text and model only shape the
HTTP payload, which the oracle already accounts for. -/
def request (oracle : Nat → AttemptOutcome) (clock : Nat → ℚ)
    (retry_count : Nat) (eps : List TTSEndpoint) : RequestOutcome :=
  requestGo oracle clock retry_count (retry_count + 1) 0 eps 0 0 []

end TTSBalancer

/-! ## `app/services/tts_cache.py` -/

namespace TTSCache

abbrev Audio := TTSBalancer.Audio

/-- The enum `CacheStatus`. -/
inductive CacheStatus where
  | pending
  | generating
  | completed
  | failed
deriving DecidableEq

/-- The dataclass `TTSCacheEntry`.  `event_set` is the state of the
`asyncio.Event` attached to the entry; `eid` is a ghost field recording the
Python object identity of the entry (entries are compared and tracked by
identity in the source, distinct objects are created with fresh ids and an id
is never reused). -/
structure TTSCacheEntry where
  text : String
  model : String
  audio : Option Audio := none
  status : CacheStatus := .pending
  created_at : ℚ
  completed_at : Option ℚ := none
  error : Option String := none
  event_set : Bool := false
  eid : Nat
deriving DecidableEq

/-- The constructor arguments of `TTSCacheManager` that the claims mention. -/
structure CacheConfig where
  max_size : Nat := 1000
  ttl : ℚ := 3600

/-- One asynchronous `_generate(cache_key)` task spawned by `submit`: the key
it was given, whether it has run its first critical section yet, and the
(predetermined, environment-supplied) result of its `balancer.request` call. -/
inductive TaskPhase where
  | notStarted
  | started
deriving DecidableEq

instance {α β : Type} [DecidableEq α] [DecidableEq β] :
    DecidableEq (Except α β) := fun a b =>
  match a, b with
  | .ok x, .ok y => decidable_of_iff (x = y) (by simp)
  | .error x, .error y => decidable_of_iff (x = y) (by simp)
  | .ok _, .error _ => isFalse (by simp)
  | .error _, .ok _ => isFalse (by simp)

structure GenTask where
  key : String
  phase : TaskPhase
  outcome : Except String Audio
deriving DecidableEq

/-- The mutable state of a `TTSCacheManager` together with its spawned
generation tasks.  `cache` is the dict `self._cache` as an insertion-ordered
association list; `tasks` holds the live `_generate` tasks keyed by a ghost
task id; `nextEid` / `nextTid` are the ghost id supplies. -/
structure CacheState where
  cache : List (String × TTSCacheEntry) := []
  tasks : List (Nat × GenTask) := []
  hit_count : Nat := 0
  miss_count : Nat := 0
  nextEid : Nat := 0
  nextTid : Nat := 0
deriving DecidableEq

/-- `TTSCacheManager._generate_cache_key`: SHA-256 of `f"{model}:{text}"`. -/
def generate_cache_key (text model : String) : String :=
  SHA256.sha256hex (model ++ ":" ++ text)

/-- `cache_key in self._cache`. -/
def hasKey (c : List (String × TTSCacheEntry)) (k : String) : Bool :=
  (c.find? (fun p => p.1 == k)).isSome

/-- `self._cache.get(cache_key)`. -/
def findEntry (c : List (String × TTSCacheEntry)) (k : String) :
    Option TTSCacheEntry :=
  (c.find? (fun p => p.1 == k)).map (·.2)

/-- Assignment to the fields of the entry object bound to `k` (dict keys are
unique, so at most one pair is rewritten). -/
def setEntry (c : List (String × TTSCacheEntry)) (k : String)
    (e' : TTSCacheEntry) : List (String × TTSCacheEntry) :=
  c.map fun p => if p.1 == k then (p.1, e') else p

/-- The eviction order of `_evict_if_needed`:
`sorted(self._cache.items(), key=lambda x: x[1].created_at)`. -/
def byCreatedLe (a b : String × TTSCacheEntry) : Prop :=
  a.2.created_at ≤ b.2.created_at

instance : DecidableRel byCreatedLe := fun a b => by
  unfold byCreatedLe; infer_instance

instance : IsTotal (String × TTSCacheEntry) byCreatedLe :=
  ⟨fun a b => le_total a.2.created_at b.2.created_at⟩

instance : IsTrans (String × TTSCacheEntry) byCreatedLe :=
  ⟨fun _ _ _ h h' => le_trans h h'⟩

/-- `TTSCacheManager._evict_if_needed`: when the dict already holds
`max_size` entries, delete the `max(1, len // 10)` oldest-by-`created_at`
ones (deletion keeps the insertion order of the survivors). -/
def evict_if_needed (cfg : CacheConfig) (c : List (String × TTSCacheEntry)) :
    List (String × TTSCacheEntry) :=
  if cfg.max_size ≤ c.length then
    let entries := List.insertionSort byCreatedLe c
    let to_remove := max 1 (entries.length / 10)
    let doomed := (entries.take to_remove).map (·.1)
    c.filter fun p => ¬ doomed.contains p.1
  else c

/-- `TTSCacheManager.submit(text, model)`: return the key at once if an entry
exists, otherwise evict if needed, insert a fresh pending entry and spawn one
`_generate` task for the key.  `now` is `time.time()` at entry creation and
`outcome` the balancer result the spawned task will eventually observe. -/
def submit (cfg : CacheConfig) (st : CacheState) (text model : String)
    (now : ℚ) (outcome : Except String Audio) : String × CacheState :=
  let cache_key := generate_cache_key text model
  if hasKey st.cache cache_key then (cache_key, st)
  else
    let c1 := evict_if_needed cfg st.cache
    let entry : TTSCacheEntry :=
      { text := text, model := model, created_at := now, eid := st.nextEid }
    (cache_key,
     { st with
        cache := c1 ++ [(cache_key, entry)]
        tasks := st.tasks ++
          [(st.nextTid, ⟨cache_key, .notStarted, outcome⟩)]
        nextEid := st.nextEid + 1
        nextTid := st.nextTid + 1 })

def findTask (ts : List (Nat × GenTask)) (tid : Nat) : Option GenTask :=
  (ts.find? (fun p => p.1 == tid)).map (·.2)

def setTask (ts : List (Nat × GenTask)) (tid : Nat) (t' : GenTask) :
    List (Nat × GenTask) :=
  ts.map fun p => if p.1 == tid then (p.1, t') else p

def removeTask (ts : List (Nat × GenTask)) (tid : Nat) :
    List (Nat × GenTask) :=
  ts.filter fun p => ¬ p.1 == tid

/-- The first critical section of `TTSCacheManager._generate`: look the key
up in the dict; a missing entry ends the task, otherwise the entry object
currently bound to the key is stamped `GENERATING` and the task proceeds to
its `balancer.request` await. -/
def taskStart (st : CacheState) (tid : Nat) : CacheState :=
  match findTask st.tasks tid with
  | none => st
  | some t =>
    if t.phase = .notStarted then
      match findEntry st.cache t.key with
      | none => { st with tasks := removeTask st.tasks tid }
      | some e =>
          { st with
             cache := setEntry st.cache t.key ({ e with status := .generating })
             tasks := setTask st.tasks tid { t with phase := .started } }
    else st

/-- The second critical section of `_generate`, entered when
`balancer.request` returns or raises: the key is looked up again and
whatever entry is bound to it now receives the terminal status, payload and
completion signal; the task then ends. -/
def taskFinish (st : CacheState) (tid : Nat) (now : ℚ) : CacheState :=
  match findTask st.tasks tid with
  | none => st
  | some t =>
    if t.phase = .started then
      let st' :=
        match findEntry st.cache t.key with
        | none => st
        | some e =>
          match t.outcome with
          | .ok audio =>
              let e' := { e with audio := some audio, status := .completed,
                                 completed_at := some now, event_set := true }
              { st with cache := setEntry st.cache t.key e' }
          | .error msg =>
              let e' := { e with status := .failed, error := some msg,
                                 event_set := true }
              { st with cache := setEntry st.cache t.key e' }
      { st' with tasks := removeTask st'.tasks tid }
    else st

/-- `TTSCacheManager._cleanup_expired`, the sweeper body: drop every entry
whose age exceeds the TTL. -/
def cleanup_expired (cfg : CacheConfig) (st : CacheState) (now : ℚ) :
    CacheState :=
  { st with cache := st.cache.filter (fun p => ¬ (cfg.ttl < now - p.2.created_at)) }

end TTSCache

namespace TTSCache

/-- What `TTSCacheManager.get` decides before its `asyncio.wait_for`: either
it already has its return value, or it must wait on the given entry's
completion event. -/
inductive GetStep where
  | immediate (v : Option Audio)
  | waitOn (key : String)
deriving DecidableEq

/-- Lines 263-271 of `tts_cache.py`: return the audio of a completed entry,
`None` for a failed one, and otherwise go wait on the entry's event. -/
def afterLookup (k : String) (e : TTSCacheEntry) : GetStep :=
  if e.status = .completed then .immediate e.audio
  else if e.status = .failed then .immediate none
  else .waitOn k

/-- `TTSCacheManager.get(text, model, timeout, generate_if_missing)` up to its
`asyncio.wait_for`: the initial lookup and hit/miss accounting, the optional
on-demand `submit`, the second lookup, and the status dispatch.  Everything
after this point reads the entry object without touching the manager state. -/
def get_phase1 (cfg : CacheConfig) (st : CacheState) (text model : String)
    (generate_if_missing : Bool) (now : ℚ) (outcome : Except String Audio) :
    GetStep × CacheState :=
  let cache_key := generate_cache_key text model
  match findEntry st.cache cache_key with
  | some e =>
      (afterLookup cache_key e, { st with hit_count := st.hit_count + 1 })
  | none =>
      let st1 := { st with miss_count := st.miss_count + 1 }
      if generate_if_missing then
        let st2 := (submit cfg st1 text model now outcome).2
        match findEntry st2.cache cache_key with
        | none => (.immediate none, st2)
        | some e => (afterLookup cache_key e, st2)
      else (.immediate none, st1)

/-- `asyncio.wait_for(entry._event.wait(), timeout=timeout)` as a boolean:
`laterSet` is the environment's answer to whether the event gets set before
the deadline.  With `timeout <= 0`, `wait_for` cancels the freshly created
waiter before it can run and raises `TimeoutError` immediately. -/
def wait_for_signal (timeout : ℚ) (laterSet : Bool) : Bool :=
  if timeout ≤ 0 then false else laterSet

/-- The value `get` returns after its wait: on the signal, the captured entry
object's audio if it is completed and `None` otherwise; on `TimeoutError`,
`None`.  `entryAtWake` is the state of the captured entry object when the
waiter resumes. -/
def get_wait_value (signaled : Bool) (entryAtWake : TTSCacheEntry) :
    Option Audio :=
  if signaled then
    (if entryAtWake.status = .completed then entryAtWake.audio else none)
  else none

/-- The whole of `TTSCacheManager.get`. -/
def get (cfg : CacheConfig) (st : CacheState) (text model : String)
    (timeout : ℚ) (generate_if_missing : Bool) (now : ℚ)
    (outcome : Except String Audio) (laterSet : Bool)
    (entryAtWake : TTSCacheEntry) : Option Audio × CacheState :=
  match get_phase1 cfg st text model generate_if_missing now outcome with
  | (.immediate v, st') => (v, st')
  | (.waitOn _, st') =>
      (get_wait_value (wait_for_signal timeout laterSet) entryAtWake, st')

/-! ### The concurrent system as a transition system.

Each constructor is one atomic step of one of the logical tasks of the
source: a `submit` call, the state-mutating part of a `get` call, the first
or second critical section of a `_generate` task, or one sweeper round.
`asyncio` may interleave these steps arbitrarily. -/

inductive CacheAction where
  | submitStep (text model : String) (now : ℚ) (outcome : Except String Audio)
  | getStep (text model : String) (generate_if_missing : Bool) (now : ℚ)
      (outcome : Except String Audio)
  | startStep (tid : Nat)
  | finishStep (tid : Nat) (now : ℚ)
  | sweepStep (now : ℚ)

def applyAction (cfg : CacheConfig) (st : CacheState) : CacheAction → CacheState
  | .submitStep text model now outcome =>
      (submit cfg st text model now outcome).2
  | .getStep text model gim now outcome =>
      (get_phase1 cfg st text model gim now outcome).2
  | .startStep tid => taskStart st tid
  | .finishStep tid now => taskFinish st tid now
  | .sweepStep now => cleanup_expired cfg st now

/-- All states visited by a run, initial state included. -/
def states (cfg : CacheConfig) : CacheState → List CacheAction → List CacheState
  | st, [] => [st]
  | st, a :: acts => st :: states cfg (applyAction cfg st a) acts

/-- The status of the entry object with ghost identity `eid`, when it is in
the cache. -/
def statusOfEid (eid : Nat) (st : CacheState) : Option CacheStatus :=
  ((st.cache.map (·.2)).find? (fun e => e.eid == eid)).map (·.status)

/-- The statuses an entry object holds over the course of a run, one sample
per state in which the object is in the cache. -/
def statusHistory (eid : Nat) (sts : List CacheState) : List CacheStatus :=
  sts.filterMap (statusOfEid eid)

/-- The status transitions allowed by the specification: stay put, or follow
pending → generating → (completed or failed). -/
def stepOk : CacheStatus → CacheStatus → Bool
  | .pending, .pending => true
  | .pending, .generating => true
  | .generating, .generating => true
  | .generating, .completed => true
  | .generating, .failed => true
  | .completed, .completed => true
  | .failed, .failed => true
  | _, _ => false

def chainFrom : CacheStatus → List CacheStatus → Bool
  | _, [] => true
  | s, t :: rest => stepOk s t && chainFrom t rest

/-- A status history is sound when it starts pending and each step is
allowed; dually, its deduplication is a prefix of
pending → generating → (completed or failed). -/
def statusChainOk : List CacheStatus → Bool
  | [] => true
  | s :: rest => (s == .pending) && chainFrom s rest

/-- Is a `_generate` task for this key alive? -/
def hasTaskFor (ts : List (Nat × GenTask)) (k : String) : Bool :=
  ts.any (fun p => p.2.key == k)

/-- The single-flight side condition on a step: an action that inserts a new
entry for key `k` must not run while a `_generate` task for `k` spawned for
an earlier (since evicted) entry is still alive.  Steps that cannot insert
are unconstrained. -/
def actionOk (cfg : CacheConfig) (st : CacheState) : CacheAction → Bool
  | .submitStep text model _ _ =>
      hasKey st.cache (generate_cache_key text model) ||
        ¬ hasTaskFor st.tasks (generate_cache_key text model)
  | .getStep text model gim _ _ =>
      ¬ gim || hasKey st.cache (generate_cache_key text model) ||
        ¬ hasTaskFor st.tasks (generate_cache_key text model)
  | _ => true

def traceOk (cfg : CacheConfig) : CacheState → List CacheAction → Bool
  | _, [] => true
  | st, a :: acts => actionOk cfg st a && traceOk cfg (applyAction cfg st a) acts

end TTSCache

namespace TTSCache

/-- The state well-formedness maintained by every run of the transition
system from the empty manager state: dict keys, ghost entry ids and ghost
task ids are unique, ghost ids stay below their supplies, at most one live
task exists per key, and a live task's entry (when its key is still bound)
is pending before the task's first critical section and generating between
its two critical sections. -/
structure Inv (st : CacheState) : Prop where
  keysNodup : (st.cache.map (·.1)).Nodup
  eidsBound : ∀ p ∈ st.cache, p.2.eid < st.nextEid
  eidsNodup : (st.cache.map (·.2.eid)).Nodup
  tidsBound : ∀ q ∈ st.tasks, q.1 < st.nextTid
  tidsNodup : (st.tasks.map (·.1)).Nodup
  taskKeys : (st.tasks.map (·.2.key)).Nodup
  taskNotStarted : ∀ q ∈ st.tasks, q.2.phase = TaskPhase.notStarted →
    ∀ e, findEntry st.cache q.2.key = some e → e.status = CacheStatus.pending
  taskStarted : ∀ q ∈ st.tasks, q.2.phase = TaskPhase.started →
    ∀ e, findEntry st.cache q.2.key = some e →
      e.status = CacheStatus.generating

end TTSCache


namespace TTSCache

/-- What one atomic step of the system guarantees about entry statuses: the
ghost id supply never shrinks, an entry present before and after the step
makes one allowed status move, an entry that was absent with a stale id
stays absent, and an entry that appears during the step appears pending. -/
structure StepFacts (s s' : CacheState) : Prop where
  nextEid_mono : s.nextEid ≤ s'.nextEid
  statusStep : ∀ eid s1 s2, statusOfEid eid s = some s1 →
    statusOfEid eid s' = some s2 → stepOk s1 s2 = true
  absentLow : ∀ eid, statusOfEid eid s = none → eid < s.nextEid →
    statusOfEid eid s' = none
  freshPending : ∀ eid s2, statusOfEid eid s = none →
    statusOfEid eid s' = some s2 → s2 = CacheStatus.pending

end TTSCache


/-! ## Theorems -/

namespace TTSBalancer

theorem record_success_load (e : TTSEndpoint) (rt : ℚ) :
    (record_success e rt).current_load = e.current_load := rfl

theorem record_failure_load (e : TTSEndpoint) :
    (record_failure e).current_load = e.current_load := by
  simp only [record_failure]
  split <;> rfl

theorem loadKeyLe_refl (e : TTSEndpoint) : loadKeyLe e e :=
  (IsTotal.total (r := loadKeyLe) e e).elim id id

/-- The head of a sorted permutation of `l` is a minimum of `l`. -/
theorem head_insertionSort_min {α : Type} (r : α → α → Prop) [DecidableRel r]
    [IsTotal α r] [IsTrans α r] {l : List α} {a : α}
    (h : (List.insertionSort r l).head? = some a) :
    a ∈ l ∧ ∀ b ∈ l, r a b := by
  have hperm := List.perm_insertionSort r l
  have hsorted := List.sorted_insertionSort r l
  obtain ⟨rest, hrest⟩ : ∃ rest, List.insertionSort r l = a :: rest := by
    cases hsort : List.insertionSort r l with
    | nil => rw [hsort] at h; simp at h
    | cons x xs => rw [hsort] at h; simp at h; exact ⟨xs, by rw [h]⟩
  constructor
  · exact hperm.subset (hrest ▸ List.mem_cons_self a rest)
  · intro b hb
    have hb' : b ∈ a :: rest := hrest ▸ hperm.symm.subset hb
    rcases List.mem_cons.mp hb' with rfl | hb''
    · exact (IsTotal.total (r := r) b b).elim id id
    · rw [hrest] at hsorted
      exact List.rel_of_sorted_cons hsorted b hb''

theorem insertionSort_ne_nil {α : Type} (r : α → α → Prop) [DecidableRel r]
    {l : List α} (h : l ≠ []) : List.insertionSort r l ≠ [] := by
  intro hcon
  have hlen := (List.perm_insertionSort r l).length_eq
  rw [hcon] at hlen
  exact h (List.length_eq_zero.mp hlen.symm)

/-- C3: endpoint selection returns, among the available endpoints, one that
minimizes the lexicographic pair (in-flight count, average response time);
when every endpoint is unavailable it first resets the whole pool (all
available, error counters cleared) and selects among all of them; it returns
no endpoint exactly when the pool is empty. -/
theorem select_endpoint_correct (eps : List TTSEndpoint) :
    ((select_endpoint eps).1 = none ↔ eps = []) ∧
    (eps.filter (·.is_available) ≠ [] →
      ∃ ep, (select_endpoint eps).1 = some ep ∧ ep.is_available = true ∧
        ep ∈ eps ∧
        ∀ e ∈ eps, e.is_available = true → loadKeyLe ep e) ∧
    (eps.filter (·.is_available) = [] → eps ≠ [] →
      (∀ e ∈ (select_endpoint eps).2,
        e.is_available = true ∧ e.error_count = 0) ∧
      ∃ ep, (select_endpoint eps).1 = some ep ∧
        ep ∈ eps.map resetEndpoint ∧
        ∀ e ∈ eps.map resetEndpoint, loadKeyLe ep e) := by
  by_cases hav : eps.filter (·.is_available) = []
  · have hsel : select_endpoint eps =
        ((List.insertionSort loadKeyLe (eps.map resetEndpoint)).head?,
         List.insertionSort loadKeyLe (eps.map resetEndpoint)) := by
      simp only [select_endpoint, hav]
      simp
    refine ⟨?_, ?_, ?_⟩
    · rw [hsel]
      constructor
      · intro hnone
        by_contra hne
        have : List.insertionSort loadKeyLe (eps.map resetEndpoint) ≠ [] :=
          insertionSort_ne_nil _ (by simpa using hne)
        rcases List.exists_cons_of_ne_nil this with ⟨x, xs, hx⟩
        rw [hx] at hnone
        simp at hnone
      · intro h
        subst h
        rfl
    · intro hcon
      exact absurd hav hcon
    · intro _ hne
      have hne' : List.insertionSort loadKeyLe (eps.map resetEndpoint) ≠ [] :=
        insertionSort_ne_nil _ (by simpa using hne)
      rcases List.exists_cons_of_ne_nil hne' with ⟨x, xs, hx⟩
      have hhead : (List.insertionSort loadKeyLe (eps.map resetEndpoint)).head?
          = some x := by rw [hx]; rfl
      have hmin := head_insertionSort_min loadKeyLe hhead
      constructor
      · intro e he
        rw [hsel] at he
        have : e ∈ eps.map resetEndpoint :=
          (List.perm_insertionSort loadKeyLe _).subset he
        rcases List.mem_map.mp this with ⟨e0, _, rfl⟩
        exact ⟨rfl, rfl⟩
      · exact ⟨x, by rw [hsel]; exact hhead, hmin.1, hmin.2⟩
  · have hsel : select_endpoint eps =
        ((List.insertionSort loadKeyLe (eps.filter (·.is_available))).head?,
         eps) := by
      have hemp : (eps.filter (·.is_available)).isEmpty = false := by
        cases hcase : eps.filter (·.is_available) with
        | nil => exact absurd hcase hav
        | cons a l => rfl
      simp only [select_endpoint, hemp]
      simp
    have hne' : List.insertionSort loadKeyLe (eps.filter (·.is_available)) ≠ [] :=
      insertionSort_ne_nil _ hav
    rcases List.exists_cons_of_ne_nil hne' with ⟨x, xs, hx⟩
    have hhead : (List.insertionSort loadKeyLe
        (eps.filter (·.is_available))).head? = some x := by rw [hx]; rfl
    have hmin := head_insertionSort_min loadKeyLe hhead
    have hxfil := hmin.1
    refine ⟨?_, ?_, fun hcon => absurd hcon hav⟩
    · rw [hsel]
      constructor
      · intro hnone
        rw [hhead] at hnone
        simp at hnone
      · intro h
        subst h
        simp at hav
    · intro _
      refine ⟨x, by rw [hsel]; exact hhead, ?_, ?_, ?_⟩
      · exact (List.of_mem_filter hxfil : x.is_available)
      · exact List.mem_of_mem_filter hxfil
      · intro e he hea
        exact hmin.2 e (List.mem_filter.mpr ⟨he, by simpa using hea⟩)

/-- Witness for C3: on a two-endpoint pool with one available endpoint,
selection picks the available one, which is load-minimal among available. -/
theorem select_endpoint_correct_witness :
    ∃ ep, (select_endpoint
        [{ url := "a", is_available := false, current_load := 0 },
         { url := "b", current_load := 2 }]).1 = some ep ∧
      ep.is_available = true ∧
      ep ∈ [{ url := "a", is_available := false, current_load := 0 },
            ({ url := "b", current_load := 2 } : TTSEndpoint)] ∧
      ∀ e ∈ [{ url := "a", is_available := false, current_load := 0 },
             ({ url := "b", current_load := 2 } : TTSEndpoint)],
        e.is_available = true → loadKeyLe ep e :=
  (select_endpoint_correct _).2.1 (by decide)

end TTSBalancer

namespace TTSBalancer

/-- C4 (counterexample): with a pool of two unavailable endpoints whose loads
are out of order, selection takes the global-reset branch; there the source
aliases `available = self.endpoints` and sorts that list in place, so the
pool comes back reordered by (in-flight count, average response time). -/
theorem select_endpoint_reorders_pool :
    ((select_endpoint
        [{ url := "a", is_available := false, current_load := 5 },
         { url := "b", is_available := false, current_load := 1 }]).2.map
      (·.url)) = ["b", "a"] ∧
    (["b", "a"] : List String) ≠
      (([{ url := "a", is_available := false, current_load := 5 },
         { url := "b", is_available := false, current_load := 1 }] :
        List TTSEndpoint).map (·.url)) := by
  constructor
  · decide
  · decide

/-- C4 (amended): selection leaves the pool list untouched whenever at least
one endpoint is available; when every endpoint is unavailable, the reset
branch keeps exactly the (reset) endpoints but re-sorts the pool list in
place by (in-flight count, average response time), losing insertion order. -/
theorem select_endpoint_pool_frame (eps : List TTSEndpoint) :
    (eps.filter (·.is_available) ≠ [] → (select_endpoint eps).2 = eps) ∧
    (eps.filter (·.is_available) = [] →
      (select_endpoint eps).2.Perm (eps.map resetEndpoint) ∧
      (select_endpoint eps).2 =
        List.insertionSort loadKeyLe (eps.map resetEndpoint)) := by
  constructor
  · intro hav
    have hemp : (eps.filter (·.is_available)).isEmpty = false := by
      cases hcase : eps.filter (·.is_available) with
      | nil => exact absurd hcase hav
      | cons a l => rfl
    simp only [select_endpoint, hemp]
    simp
  · intro hav
    constructor
    · simp only [select_endpoint, hav]
      simp [List.perm_insertionSort]
    · simp only [select_endpoint, hav]
      simp

/-- Witness for C4 (amended): a pool with an available endpoint is returned
unchanged. -/
theorem select_endpoint_pool_frame_witness :
    (select_endpoint [{ url := "a" }, { url := "b" }]).2 =
      [{ url := "a" }, ({ url := "b" } : TTSEndpoint)] :=
  (select_endpoint_pool_frame _).1 (by decide)

/-- C6: a recorded failure increments the consecutive-error count and, for an
available endpoint, removes availability exactly when that count reaches
three; a recorded success zeroes the count and re-asserts availability; and
`_do_request` restores the in-flight count on every exit path, so a
non-negative count stays non-negative through the call. -/
theorem endpoint_record_invariants (e : TTSEndpoint) (rt now : ℚ)
    (out : AttemptOutcome) (havail : e.is_available = true)
    (hload : 0 ≤ e.current_load) :
    (record_failure e).error_count = e.error_count + 1 ∧
    ((record_failure e).is_available = false ↔ 3 ≤ e.error_count + 1) ∧
    (record_success e rt).error_count = 0 ∧
    (record_success e rt).is_available = true ∧
    (do_request e now out).1.current_load = e.current_load ∧
    0 ≤ (do_request_enter e now).current_load ∧
    0 ≤ (do_request e now out).1.current_load := by
  have hfail_load := record_failure_load e
  have hdo : (do_request e now out).1.current_load = e.current_load := by
    cases out with
    | success audio rt' =>
        simp [do_request, do_request_exit, record_success_load, do_request_enter]
    | failure msg =>
        simp [do_request, do_request_exit, record_failure_load, do_request_enter]
  refine ⟨?_, ?_, rfl, rfl, hdo, ?_, ?_⟩
  · simp only [record_failure]
    split <;> rfl
  · simp only [record_failure]
    split
    · rename_i h
      simpa using h
    · rename_i h
      simp [havail, h]
  · simp only [do_request_enter]
    omega
  · rw [hdo]
    exact hload

/-- Witness for C6 at a fresh endpoint and a failing attempt. -/
theorem endpoint_record_invariants_witness :
    ((record_failure { url := "x" }).error_count = 0 + 1 ∧
    ((record_failure { url := "x" }).is_available = false ↔ 3 ≤ 0 + 1) ∧
    (record_success { url := "x" } 1).error_count = 0 ∧
    (record_success { url := "x" } 1).is_available = true ∧
    (do_request { url := "x" } 0 (.failure "boom")).1.current_load = 0 ∧
    0 ≤ (do_request_enter { url := "x" } 0).current_load ∧
    0 ≤ (do_request { url := "x" } 0 (.failure "boom")).1.current_load) :=
  endpoint_record_invariants { url := "x" } 1 0 (.failure "boom") rfl
    (by decide)

end TTSBalancer

namespace TTSBalancer

theorem select_endpoint_mem {eps : List TTSEndpoint} (h : eps ≠ []) :
    ∃ ep eps', select_endpoint eps = (some ep, eps') ∧ ep ∈ eps' ∧
      eps'.length = eps.length := by
  by_cases hav : eps.filter (·.is_available) = []
  · have hne : eps.map resetEndpoint ≠ [] := by simpa using h
    have hs := insertionSort_ne_nil loadKeyLe hne
    rcases List.exists_cons_of_ne_nil hs with ⟨x, xs, hx⟩
    refine ⟨x, x :: xs, ?_, List.mem_cons_self x xs, ?_⟩
    · simp only [select_endpoint, hav]
      simp [hx]
    · have hlen := (List.perm_insertionSort loadKeyLe (eps.map resetEndpoint)).length_eq
      rw [hx] at hlen
      simpa using hlen
  · have hemp : (eps.filter (·.is_available)).isEmpty = false := by
      cases hcase : eps.filter (·.is_available) with
      | nil => exact absurd hcase hav
      | cons a l => rfl
    have hs := insertionSort_ne_nil loadKeyLe hav
    rcases List.exists_cons_of_ne_nil hs with ⟨x, xs, hx⟩
    refine ⟨x, eps, ?_, ?_, rfl⟩
    · simp only [select_endpoint, hemp]
      simp [hx]
    · have hxmem : x ∈ eps.filter (·.is_available) :=
        (List.perm_insertionSort loadKeyLe _).subset
          (hx ▸ List.mem_cons_self x xs)
      exact List.mem_of_mem_filter hxmem

theorem select_endpoint_idx_some {eps : List TTSEndpoint} (h : eps ≠ []) :
    ∃ i eps', select_endpoint_idx eps = (some i, eps') ∧
      eps'.length = eps.length := by
  rcases select_endpoint_mem h with ⟨ep, eps', hsel, hmem, hlen⟩
  have hany : eps'.any (fun e => decide (e = ep)) = true :=
    List.any_eq_true.mpr ⟨ep, hmem, by simp⟩
  have hsome : (eps'.findIdx? (fun e => decide (e = ep))).isSome = true := by
    rw [List.findIdx?_isSome, hany]
  rcases Option.isSome_iff_exists.mp hsome with ⟨i, hi⟩
  refine ⟨i, eps', ?_, hlen⟩
  simp only [select_endpoint_idx, hsel, hi]

theorem find?_range_succ (p : Nat → Bool) (n : Nat) :
    (List.range (n + 1)).find? p =
      if p 0 then some 0
      else ((List.range n).find? (fun i => p (i + 1))).map (· + 1) := by
  rw [List.range_succ_eq_map]
  by_cases h : p 0 = true
  · simp [List.find?_cons, h]
  · have h' : p 0 = false := by
      cases hp : p 0 with
      | true => exact absurd hp h
      | false => rfl
    simp only [List.find?_cons, h', if_neg h]
    rw [List.find?_map]
    rfl

theorem requestGo_step_fail (oracle : Nat → AttemptOutcome) (clock : Nat → ℚ)
    (rc f attempt : Nat) (eps : List TTSEndpoint) (atts sels : Nat)
    (sl : List ℚ) {msg : String} {i : Nat} {eps' : List TTSEndpoint}
    (hout : oracle attempt = .failure msg)
    (hsel : select_endpoint_idx eps = (some i, eps')) :
    requestGo oracle clock rc (f + 1) attempt eps atts sels sl =
      requestGo oracle clock rc f (attempt + 1)
        (eps'.set i
          (do_request (eps'.getD i default) (clock attempt)
            (.failure msg)).1)
        (atts + 1) (sels + 1)
        (sl ++ if attempt < rc then [(1 : ℚ) / 2 * 2 ^ attempt] else []) := by
  simp only [requestGo, hsel, hout, do_request]

theorem requestGo_step_ok (oracle : Nat → AttemptOutcome) (clock : Nat → ℚ)
    (rc f attempt : Nat) (eps : List TTSEndpoint) (atts sels : Nat)
    (sl : List ℚ) {a : Audio} {rt : ℚ} {i : Nat} {eps' : List TTSEndpoint}
    (hout : oracle attempt = .success a rt)
    (hsel : select_endpoint_idx eps = (some i, eps')) :
    requestGo oracle clock rc (f + 1) attempt eps atts sels sl =
      ⟨.ok a,
       eps'.set i
         (do_request (eps'.getD i default) (clock attempt) (.success a rt)).1,
       atts + 1, sels + 1, sl⟩ := by
  simp only [requestGo, hsel, hout, do_request]

end TTSBalancer

namespace TTSBalancer

theorem requestGo_all_fail (oracle : Nat → AttemptOutcome) (clock : Nat → ℚ)
    (rc : Nat) : ∀ (fuel : Nat), ∀ (attempt : Nat) (eps : List TTSEndpoint)
      (atts sels : Nat) (sl : List ℚ),
    eps ≠ [] → attempt + fuel = rc + 1 →
    (List.range fuel).find? (fun i => (oracle (attempt + i)).isSuccess) = none →
    (∃ msg,
      (requestGo oracle clock rc fuel attempt eps atts sels sl).result =
        .error msg) ∧
    (requestGo oracle clock rc fuel attempt eps atts sels sl).attempts =
      atts + fuel ∧
    (requestGo oracle clock rc fuel attempt eps atts sels sl).selections =
      sels + fuel ∧
    (requestGo oracle clock rc fuel attempt eps atts sels sl).sleeps =
      sl ++ (List.range (fuel - 1)).map
        (fun i => (1 : ℚ) / 2 * 2 ^ (attempt + i)) := by
  intro fuel
  induction fuel with
  | zero =>
      intro attempt eps atts sels sl hne haf hfind
      refine ⟨⟨"All TTS request attempts failed", rfl⟩, rfl, rfl, ?_⟩
      simp [requestGo]
  | succ f ih =>
      intro attempt eps atts sels sl hne haf hfind
      rcases select_endpoint_idx_some hne with ⟨i, eps', hsel, hlen⟩
      rw [find?_range_succ] at hfind
      rw [Nat.add_zero] at hfind
      have hp0 : (oracle attempt).isSuccess = false := by
        by_contra hcon
        rw [if_pos (by simpa using hcon)] at hfind
        exact Option.some_ne_none 0 hfind
      rw [if_neg (by simp [hp0])] at hfind
      have hfind' : (List.range f).find?
          (fun i => (oracle (attempt + 1 + i)).isSuccess) = none := by
        have := Option.map_eq_none.mp hfind
        rw [← this]
        congr 1
        funext j
        rw [show attempt + (j + 1) = attempt + 1 + j by omega]
      cases hout : oracle attempt with
      | success a rt =>
          rw [hout] at hp0
          simp [AttemptOutcome.isSuccess] at hp0
      | failure msg =>
          rw [requestGo_step_fail oracle clock rc f attempt eps atts sels sl
            hout hsel]
          have hne2 : eps'.set i
              (do_request (eps'.getD i default) (clock attempt)
                (.failure msg)).1 ≠ [] := by
            intro hcon
            have := congrArg List.length hcon
            rw [List.length_set, hlen] at this
            exact hne (List.length_eq_zero.mp this)
          have haf2 : attempt + 1 + f = rc + 1 := by omega
          rcases ih (attempt + 1)
            (eps'.set i
              (do_request (eps'.getD i default) (clock attempt)
                (.failure msg)).1)
            (atts + 1) (sels + 1)
            (sl ++ if attempt < rc then [(1 : ℚ) / 2 * 2 ^ attempt] else [])
            hne2 haf2 hfind' with ⟨hres, hatt, hselc, hsleep⟩
          refine ⟨hres, by rw [hatt]; omega, by rw [hselc]; omega, ?_⟩
          rw [hsleep]
          rcases Nat.eq_zero_or_pos f with hf | hf
          · subst hf
            have : ¬ attempt < rc := by omega
            simp [this]
          · have hlt : attempt < rc := by omega
            rw [if_pos hlt, List.append_assoc]
            congr 1
            rw [show f + 1 - 1 = (f - 1) + 1 by omega, List.range_succ_eq_map,
              List.map_cons, List.map_map, List.singleton_append]
            have hfun : ((fun i => (1 : ℚ) / 2 * 2 ^ (attempt + i)) ∘ Nat.succ)
                = (fun i => (1 : ℚ) / 2 * 2 ^ (attempt + 1 + i)) := by
              funext a
              simp only [Function.comp_apply]
              congr 2
              omega
            rw [hfun]
            norm_num

end TTSBalancer

namespace TTSBalancer

theorem requestGo_first_success (oracle : Nat → AttemptOutcome)
    (clock : Nat → ℚ) (rc : Nat) : ∀ (fuel : Nat), ∀ (attempt : Nat)
      (eps : List TTSEndpoint) (atts sels : Nat) (sl : List ℚ) (j : Nat),
    eps ≠ [] → attempt + fuel = rc + 1 →
    (List.range fuel).find? (fun i => (oracle (attempt + i)).isSuccess) =
      some j →
    ∃ a rt, oracle (attempt + j) = .success a rt ∧
      (requestGo oracle clock rc fuel attempt eps atts sels sl).result =
        .ok a ∧
      (requestGo oracle clock rc fuel attempt eps atts sels sl).attempts =
        atts + j + 1 ∧
      (requestGo oracle clock rc fuel attempt eps atts sels sl).selections =
        sels + j + 1 ∧
      (requestGo oracle clock rc fuel attempt eps atts sels sl).sleeps =
        sl ++ (List.range j).map (fun i => (1 : ℚ) / 2 * 2 ^ (attempt + i)) := by
  intro fuel
  induction fuel with
  | zero =>
      intro attempt eps atts sels sl j hne haf hfind
      simp at hfind
  | succ f ih =>
      intro attempt eps atts sels sl j hne haf hfind
      rcases select_endpoint_idx_some hne with ⟨i, eps', hsel, hlen⟩
      rw [find?_range_succ] at hfind
      rw [Nat.add_zero] at hfind
      by_cases hp0 : (oracle attempt).isSuccess = true
      · rw [if_pos hp0] at hfind
        have hj : j = 0 := by
          have := Option.some.injEq 0 j ▸ hfind
          simpa using hfind.symm
        subst hj
        cases hout : oracle attempt with
        | failure msg => rw [hout] at hp0; simp [AttemptOutcome.isSuccess] at hp0
        | success a rt =>
            rw [requestGo_step_ok oracle clock rc f attempt eps atts sels sl
              hout hsel]
            exact ⟨a, rt, by rw [Nat.add_zero]; exact hout, rfl, rfl, rfl,
              by simp⟩
      · rw [if_neg hp0] at hfind
        rcases Option.map_eq_some'.mp hfind with ⟨j', hfind0, hj⟩
        have hfind' : (List.range f).find?
            (fun i => (oracle (attempt + 1 + i)).isSuccess) = some j' := by
          rw [← hfind0]
          congr 1
          funext x
          rw [show attempt + (x + 1) = attempt + 1 + x by omega]
        have hjf : j' < f := by
          have := List.mem_of_find?_eq_some hfind'
          simpa using this
        cases hout : oracle attempt with
        | success a rt => rw [hout] at hp0; simp [AttemptOutcome.isSuccess] at hp0
        | failure msg =>
            rw [requestGo_step_fail oracle clock rc f attempt eps atts sels sl
              hout hsel]
            have hne2 : eps'.set i
                (do_request (eps'.getD i default) (clock attempt)
                  (.failure msg)).1 ≠ [] := by
              intro hcon
              have := congrArg List.length hcon
              rw [List.length_set, hlen] at this
              exact hne (List.length_eq_zero.mp this)
            have haf2 : attempt + 1 + f = rc + 1 := by omega
            rcases ih (attempt + 1)
              (eps'.set i
                (do_request (eps'.getD i default) (clock attempt)
                  (.failure msg)).1)
              (atts + 1) (sels + 1)
              (sl ++ if attempt < rc then [(1 : ℚ) / 2 * 2 ^ attempt] else [])
              j' hne2 haf2 hfind' with ⟨a, rt, hora, hres, hatt, hselc, hsleep⟩
            refine ⟨a, rt, ?_, hres, ?_, ?_, ?_⟩
            · rw [show attempt + j = attempt + 1 + j' by omega]
              exact hora
            · rw [hatt]; omega
            · rw [hselc]; omega
            · rw [hsleep]
              have hlt : attempt < rc := by omega
              rw [if_pos hlt, List.append_assoc]
              congr 1
              rw [← hj, List.range_succ_eq_map, List.map_cons, List.map_map,
                List.singleton_append]
              have hfun : ((fun i => (1 : ℚ) / 2 * 2 ^ (attempt + i)) ∘ Nat.succ)
                  = (fun i => (1 : ℚ) / 2 * 2 ^ (attempt + 1 + i)) := by
                funext x
                simp only [Function.comp_apply]
                congr 2
                omega
              rw [hfun]
              norm_num

end TTSBalancer

namespace TTSBalancer

/-- C5: `request(text, model)` performs at most `retry_count + 1` attempts,
re-selects an endpoint before every attempt (on a nonempty pool, one
selection per attempt; on an empty pool, the one selection finds nothing and
no attempt is made), sleeps `0.5 * 2 ^ attempt` seconds between consecutive
attempts, returns the body of the first successful attempt, and raises
exactly when every attempt fails or no endpoint can be selected. -/
theorem request_retry_policy (oracle : Nat → AttemptOutcome) (clock : Nat → ℚ)
    (rc : Nat) (eps : List TTSEndpoint) :
    (request oracle clock rc eps).attempts ≤ rc + 1 ∧
    (eps = [] →
      (request oracle clock rc eps).result =
        .error "No available TTS endpoints" ∧
      (request oracle clock rc eps).attempts = 0 ∧
      (request oracle clock rc eps).selections = 1 ∧
      (request oracle clock rc eps).sleeps = []) ∧
    (eps ≠ [] →
      (request oracle clock rc eps).selections =
        (request oracle clock rc eps).attempts ∧
      (∀ j, (List.range (rc + 1)).find? (fun i => (oracle i).isSuccess) =
          some j →
        ∃ a rt, oracle j = .success a rt ∧
          (request oracle clock rc eps).result = .ok a ∧
          (request oracle clock rc eps).attempts = j + 1 ∧
          (request oracle clock rc eps).sleeps =
            (List.range j).map (fun i => (1 : ℚ) / 2 * 2 ^ i)) ∧
      ((List.range (rc + 1)).find? (fun i => (oracle i).isSuccess) = none →
        (∃ msg, (request oracle clock rc eps).result = .error msg) ∧
        (request oracle clock rc eps).attempts = rc + 1 ∧
        (request oracle clock rc eps).sleeps =
          (List.range rc).map (fun i => (1 : ℚ) / 2 * 2 ^ i))) := by
  have hpred : (fun i => (oracle (0 + i)).isSuccess) =
      (fun i => (oracle i).isSuccess) := by
    funext x
    rw [Nat.zero_add]
  have hexp : (fun i => (1 : ℚ) / 2 * 2 ^ (0 + i)) =
      (fun i => (1 : ℚ) / 2 * 2 ^ i) := by
    funext x
    rw [Nat.zero_add]
  by_cases hne : eps = []
  · subst hne
    have hsel0 : select_endpoint_idx ([] : List TTSEndpoint) = (none, []) := rfl
    have hreq : request oracle clock rc [] =
        ⟨.error "No available TTS endpoints", [], 0, 0 + 1, []⟩ := by
      show requestGo oracle clock rc (rc + 1) 0 [] 0 0 [] = _
      simp [requestGo, hsel0]
    rw [hreq]
    refine ⟨by simp, fun _ => ⟨rfl, rfl, rfl, rfl⟩, fun hcon => absurd rfl hcon⟩
  · cases hfind : (List.range (rc + 1)).find? (fun i => (oracle i).isSuccess)
      with
    | some j =>
        have hfind0 : (List.range (rc + 1)).find?
            (fun i => (oracle (0 + i)).isSuccess) = some j := by
          rw [hpred]; exact hfind
        rcases requestGo_first_success oracle clock rc (rc + 1) 0 eps 0 0 [] j
          hne (by omega) hfind0 with ⟨a, rt, hora, hres, hatt, hselc, hsleep⟩
        have hjlt : j < rc + 1 := by
          have := List.mem_of_find?_eq_some hfind
          simpa using this
        rw [Nat.zero_add] at hora
        refine ⟨?_, fun hcon => absurd hcon hne, fun _ => ⟨?_, ?_, ?_⟩⟩
        · show (request oracle clock rc eps).attempts ≤ rc + 1
          rw [show request oracle clock rc eps =
            requestGo oracle clock rc (rc + 1) 0 eps 0 0 [] from rfl, hatt]
          omega
        · rw [show request oracle clock rc eps =
            requestGo oracle clock rc (rc + 1) 0 eps 0 0 [] from rfl,
            hselc, hatt]
        · intro j' hj'
          have : j = j' := by simpa using hj'
          subst this
          refine ⟨a, rt, hora, ?_, ?_, ?_⟩
          · exact hres
          · rw [show request oracle clock rc eps =
              requestGo oracle clock rc (rc + 1) 0 eps 0 0 [] from rfl, hatt]
            omega
          · rw [show request oracle clock rc eps =
              requestGo oracle clock rc (rc + 1) 0 eps 0 0 [] from rfl, hsleep]
            simp only [List.nil_append]
            rw [show (fun i => (1 : ℚ) / 2 * 2 ^ (0 + i)) =
              (fun i => (1 : ℚ) / 2 * 2 ^ i) from hexp]
        · intro hcon
          exact absurd hcon (by simp)
    | none =>
        have hfind0 : (List.range (rc + 1)).find?
            (fun i => (oracle (0 + i)).isSuccess) = none := by
          rw [hpred]; exact hfind
        rcases requestGo_all_fail oracle clock rc (rc + 1) 0 eps 0 0 []
          hne (by omega) hfind0 with ⟨hres, hatt, hselc, hsleep⟩
        refine ⟨?_, fun hcon => absurd hcon hne, fun _ => ⟨?_, ?_, ?_⟩⟩
        · rw [show request oracle clock rc eps =
            requestGo oracle clock rc (rc + 1) 0 eps 0 0 [] from rfl, hatt]
          omega
        · rw [show request oracle clock rc eps =
            requestGo oracle clock rc (rc + 1) 0 eps 0 0 [] from rfl,
            hselc, hatt]
        · intro j' hj'
          exact absurd hj' (by simp)
        · intro _
          refine ⟨?_, ?_, ?_⟩
          · exact hres
          · rw [show request oracle clock rc eps =
              requestGo oracle clock rc (rc + 1) 0 eps 0 0 [] from rfl, hatt]
            omega
          · rw [show request oracle clock rc eps =
              requestGo oracle clock rc (rc + 1) 0 eps 0 0 [] from rfl, hsleep]
            simp only [List.nil_append]
            rw [show rc + 1 - 1 = rc from by omega, hexp]

/-- Witness for C5: two retries allowed, the first attempt fails and the
second succeeds: the request returns the second attempt's audio after two
attempts and one backoff sleep of half a second. -/
theorem request_retry_policy_witness :
    ∃ a rt, (fun i => if i = 0 then AttemptOutcome.failure "boom"
        else .success [7] 1) 1 = .success a rt ∧
      (request (fun i => if i = 0 then .failure "boom" else .success [7] 1)
        (fun _ => 0) 2 [{ url := "e" }]).result = .ok a ∧
      (request (fun i => if i = 0 then .failure "boom" else .success [7] 1)
        (fun _ => 0) 2 [{ url := "e" }]).attempts = 1 + 1 ∧
      (request (fun i => if i = 0 then .failure "boom" else .success [7] 1)
        (fun _ => 0) 2 [{ url := "e" }]).sleeps =
        (List.range 1).map (fun i => (1 : ℚ) / 2 * 2 ^ i) := by
  have h := ((request_retry_policy
    (fun i => if i = 0 then .failure "boom" else .success [7] 1)
    (fun _ => 0) 2 [{ url := "e" }]).2.2 (by simp)).2.1 1 (by decide)
  exact h

end TTSBalancer

namespace TTSCache

theorem hasKey_false_iff (c : List (String × TTSCacheEntry)) (k : String) :
    hasKey c k = false ↔ ∀ p ∈ c, ¬ p.1 = k := by
  unfold hasKey
  constructor
  · intro h p hp hcon
    have hsome : (c.find? (fun p => p.1 == k)).isSome = true :=
      List.find?_isSome.mpr ⟨p, hp, by simp [hcon]⟩
    rw [h] at hsome
    exact Bool.false_ne_true hsome
  · intro h
    cases hh : c.find? (fun p => p.1 == k) with
    | none => rfl
    | some v =>
        have hv := List.find?_some hh
        have hvmem := List.mem_of_find?_eq_some hh
        exact absurd (by simpa using hv) (h v hvmem)

theorem hasKey_append_self (c : List (String × TTSCacheEntry)) (k : String)
    (e : TTSCacheEntry) : hasKey (c ++ [(k, e)]) k = true := by
  unfold hasKey
  rw [List.find?_append]
  cases h : c.find? (fun p => p.1 == k) with
  | some v => simp
  | none => simp [List.find?]

theorem findEntry_append_fresh {c : List (String × TTSCacheEntry)}
    {k : String} (h : hasKey c k = false) (e : TTSCacheEntry) :
    findEntry (c ++ [(k, e)]) k = some e := by
  have hnone : c.find? (fun p => p.1 == k) = none := by
    rw [List.find?_eq_none]
    intro x hx
    simp only [beq_iff_eq]
    exact (hasKey_false_iff c k).mp h x hx
  unfold findEntry
  rw [List.find?_append, hnone]
  simp [List.find?]

theorem hasKey_filter_false {c : List (String × TTSCacheEntry)} {k : String}
    (h : hasKey c k = false) (p : String × TTSCacheEntry → Bool) :
    hasKey (c.filter p) k = false := by
  rw [hasKey_false_iff] at h ⊢
  intro q hq
  exact h q (List.mem_of_mem_filter hq)

theorem evict_hasKey_false {cfg : CacheConfig}
    {c : List (String × TTSCacheEntry)} {k : String}
    (h : hasKey c k = false) : hasKey (evict_if_needed cfg c) k = false := by
  unfold evict_if_needed
  split
  · exact hasKey_filter_false h _
  · exact h

theorem submit_of_hasKey {cfg : CacheConfig} {st : CacheState}
    {text model : String} (now : ℚ) (outcome : Except String Audio)
    (h : hasKey st.cache (generate_cache_key text model) = true) :
    submit cfg st text model now outcome =
      (generate_cache_key text model, st) := by
  unfold submit
  rw [if_pos h]

theorem submit_of_fresh {cfg : CacheConfig} {st : CacheState}
    {text model : String} (now : ℚ) (outcome : Except String Audio)
    (h : hasKey st.cache (generate_cache_key text model) = false) :
    submit cfg st text model now outcome =
      (generate_cache_key text model,
       { st with
          cache := evict_if_needed cfg st.cache ++
            [(generate_cache_key text model,
              { text := text, model := model, created_at := now,
                eid := st.nextEid })]
          tasks := st.tasks ++
            [(st.nextTid, ⟨generate_cache_key text model, .notStarted,
              outcome⟩)]
          nextEid := st.nextEid + 1
          nextTid := st.nextTid + 1 }) := by
  unfold submit
  rw [if_neg (by simp [h])]

theorem submit_counters (cfg : CacheConfig) (st : CacheState)
    (text model : String) (now : ℚ) (outcome : Except String Audio) :
    (submit cfg st text model now outcome).2.hit_count = st.hit_count ∧
    (submit cfg st text model now outcome).2.miss_count = st.miss_count := by
  simp only [submit]
  split <;> exact ⟨rfl, rfl⟩

/-- C1: the first submit for a fresh key returns the key, inserts exactly one
pending entry at the end of the map and spawns exactly one generation task;
a second submit for the same (text, model) returns the same key and leaves
the whole state unchanged; with the map below capacity the pair of submits
grows the map by exactly one entry. -/
theorem submit_single_flight (cfg : CacheConfig) (st : CacheState)
    (text model : String) (now : ℚ) (outcome : Except String Audio)
    (hfresh : hasKey st.cache (generate_cache_key text model) = false) :
    (submit cfg st text model now outcome).1 =
      generate_cache_key text model ∧
    (submit cfg st text model now outcome).2.cache =
      evict_if_needed cfg st.cache ++
        [(generate_cache_key text model,
          { text := text, model := model, created_at := now,
            eid := st.nextEid })] ∧
    ({ text := text, model := model, created_at := now,
       eid := st.nextEid } : TTSCacheEntry).status = .pending ∧
    (submit cfg st text model now outcome).2.tasks =
      st.tasks ++ [(st.nextTid,
        ⟨generate_cache_key text model, .notStarted, outcome⟩)] ∧
    (∀ now' outcome',
      submit cfg (submit cfg st text model now outcome).2 text model
          now' outcome' =
        (generate_cache_key text model,
         (submit cfg st text model now outcome).2)) ∧
    (st.cache.length < cfg.max_size →
      (submit cfg st text model now outcome).2.cache.length =
        st.cache.length + 1) := by
  rw [submit_of_fresh now outcome hfresh]
  refine ⟨rfl, rfl, rfl, rfl, ?_, ?_⟩
  · intro now' outcome'
    apply submit_of_hasKey
    exact hasKey_append_self _ _ _
  · intro hlt
    have hnoev : evict_if_needed cfg st.cache = st.cache := by
      unfold evict_if_needed
      rw [if_neg (by omega)]
    simp [hnoev]

/-- Witness for C1 on an empty cache. -/
theorem submit_single_flight_witness :
    (submit {} {} "t" "m" 0 (.ok [1])).1 = generate_cache_key "t" "m" ∧
    (submit {} {} "t" "m" 0 (.ok [1])).2.cache =
      evict_if_needed {} ({} : CacheState).cache ++
        [(generate_cache_key "t" "m",
          { text := "t", model := "m", created_at := 0, eid := 0 })] ∧
    ({ text := "t", model := "m", created_at := 0,
       eid := 0 } : TTSCacheEntry).status = .pending ∧
    (submit {} {} "t" "m" 0 (.ok [1])).2.tasks =
      ({} : CacheState).tasks ++ [(0,
        ⟨generate_cache_key "t" "m", .notStarted, .ok [1]⟩)] ∧
    (∀ now' outcome',
      submit {} (submit {} {} "t" "m" 0 (.ok [1])).2 "t" "m" now' outcome' =
        (generate_cache_key "t" "m", (submit {} {} "t" "m" 0 (.ok [1])).2)) ∧
    (({} : CacheState).cache.length < ({} : CacheConfig).max_size →
      (submit {} {} "t" "m" 0 (.ok [1])).2.cache.length =
        ({} : CacheState).cache.length + 1) :=
  submit_single_flight {} {} "t" "m" 0 (.ok [1]) rfl

end TTSCache

namespace TTSCache

theorem countP_take_drop {α : Type} (P : α → Bool) (l : List α) (m : Nat) :
    List.countP P l = List.countP P (l.take m) + List.countP P (l.drop m) := by
  conv_lhs => rw [← List.take_append_drop m l]
  rw [List.countP_append]

theorem evict_spec {cfg : CacheConfig} {c : List (String × TTSCacheEntry)}
    (hnodup : (c.map (·.1)).Nodup) (htr : cfg.max_size ≤ c.length)
    (hpos : 1 ≤ c.length) :
    (evict_if_needed cfg c).length = c.length - max 1 (c.length / 10) ∧
    ∀ p ∈ c, p ∉ evict_if_needed cfg c →
      ∀ q ∈ evict_if_needed cfg c, p.2.created_at ≤ q.2.created_at := by
  have hperm : (List.insertionSort byCreatedLe c).Perm c :=
    List.perm_insertionSort byCreatedLe c
  have hslen : (List.insertionSort byCreatedLe c).length = c.length :=
    hperm.length_eq
  have hev : evict_if_needed cfg c =
      c.filter (fun p => ¬ (((List.insertionSort byCreatedLe c).take
        (max 1 ((List.insertionSort byCreatedLe c).length / 10))).map
          (·.1)).contains p.1) := by
    simp only [evict_if_needed]
    rw [if_pos htr]
  have hm_le : max 1 ((List.insertionSort byCreatedLe c).length / 10) ≤
      (List.insertionSort byCreatedLe c).length := by
    rw [hslen]
    have := Nat.div_le_self c.length 10
    omega
  have hsortednodup :
      ((List.insertionSort byCreatedLe c).map (·.1)).Nodup :=
    hnodup.perm (hperm.map (·.1)).symm
  have hdisj : (((List.insertionSort byCreatedLe c).take
      (max 1 ((List.insertionSort byCreatedLe c).length / 10))).map
        (·.1)).Disjoint
      (((List.insertionSort byCreatedLe c).drop
        (max 1 ((List.insertionSort byCreatedLe c).length / 10))).map
        (·.1)) := by
    have h := hsortednodup
    rw [← List.take_append_drop
      (max 1 ((List.insertionSort byCreatedLe c).length / 10))
      (List.insertionSort byCreatedLe c), List.map_append] at h
    exact (List.nodup_append.mp h).2.2
  have hmem_take_of_doomed : ∀ p ∈ c,
      (((List.insertionSort byCreatedLe c).take
        (max 1 ((List.insertionSort byCreatedLe c).length / 10))).map
          (·.1)).contains p.1 = true →
      p ∈ (List.insertionSort byCreatedLe c).take
        (max 1 ((List.insertionSort byCreatedLe c).length / 10)) := by
    intro p hp hcon
    have hmem : p.1 ∈ ((List.insertionSort byCreatedLe c).take
        (max 1 ((List.insertionSort byCreatedLe c).length / 10))).map
          (·.1) := List.elem_iff.mp hcon
    rcases List.mem_map.mp hmem with ⟨q0, hq0, hq0k⟩
    have hq0c : q0 ∈ c :=
      hperm.subset ((List.take_sublist _ _).subset hq0)
    have : q0 = p := List.inj_on_of_nodup_map hnodup hq0c hp hq0k
    exact this ▸ hq0
  constructor
  · rw [hev, ← List.countP_eq_length_filter]
    have hcount : List.countP
        (fun p => (((List.insertionSort byCreatedLe c).take
          (max 1 ((List.insertionSort byCreatedLe c).length / 10))).map
            (·.1)).contains p.1) c =
        max 1 (c.length / 10) := by
      rw [← hperm.countP_eq]
      rw [countP_take_drop _ (List.insertionSort byCreatedLe c)
        (max 1 ((List.insertionSort byCreatedLe c).length / 10))]
      have h1 : List.countP
          (fun p => (((List.insertionSort byCreatedLe c).take
            (max 1 ((List.insertionSort byCreatedLe c).length / 10))).map
              (·.1)).contains p.1)
          ((List.insertionSort byCreatedLe c).take
            (max 1 ((List.insertionSort byCreatedLe c).length / 10))) =
          max 1 (c.length / 10) := by
        have h1a : List.countP
            (fun p => (((List.insertionSort byCreatedLe c).take
              (max 1 ((List.insertionSort byCreatedLe c).length / 10))).map
                (·.1)).contains p.1)
            ((List.insertionSort byCreatedLe c).take
              (max 1 ((List.insertionSort byCreatedLe c).length / 10))) =
            ((List.insertionSort byCreatedLe c).take
              (max 1 ((List.insertionSort byCreatedLe c).length / 10))).length := by
          rw [List.countP_eq_length]
          intro p hp
          exact List.elem_iff.mpr (List.mem_map_of_mem (·.1) hp)
        rw [h1a, List.length_take, inf_eq_left.mpr hm_le, hslen]
      have h2 : List.countP
          (fun p => (((List.insertionSort byCreatedLe c).take
            (max 1 ((List.insertionSort byCreatedLe c).length / 10))).map
              (·.1)).contains p.1)
          ((List.insertionSort byCreatedLe c).drop
            (max 1 ((List.insertionSort byCreatedLe c).length / 10))) =
          0 := by
        rw [List.countP_eq_zero]
        intro p hp hcon
        exact hdisj (List.elem_iff.mp hcon)
          (List.mem_map_of_mem (·.1) hp)
      rw [h1, h2, Nat.add_zero]
    have htot := List.length_eq_countP_add_countP
      (fun p => (((List.insertionSort byCreatedLe c).take
        (max 1 ((List.insertionSort byCreatedLe c).length / 10))).map
          (·.1)).contains p.1) c
    rw [hcount] at htot
    omega
  · intro p hp hpnot q hq
    rw [hev] at hpnot hq
    have hpk : (((List.insertionSort byCreatedLe c).take
        (max 1 ((List.insertionSort byCreatedLe c).length / 10))).map
          (·.1)).contains p.1 = true := by
      by_contra hcon
      exact hpnot (List.mem_filter.mpr ⟨hp, by simpa using hcon⟩)
    have hptake := hmem_take_of_doomed p hp hpk
    have hqc : q ∈ c := List.mem_of_mem_filter hq
    have hqnot := List.of_mem_filter hq
    have hqsorted : q ∈ List.insertionSort byCreatedLe c :=
      hperm.symm.subset hqc
    have hqdrop : q ∈ (List.insertionSort byCreatedLe c).drop
        (max 1 ((List.insertionSort byCreatedLe c).length / 10)) := by
      have hsplitmem : q ∈ (List.insertionSort byCreatedLe c).take
          (max 1 ((List.insertionSort byCreatedLe c).length / 10)) ++
          (List.insertionSort byCreatedLe c).drop
          (max 1 ((List.insertionSort byCreatedLe c).length / 10)) := by
        rw [List.take_append_drop]
        exact hqsorted
      rcases List.mem_append.mp hsplitmem with hq1 | hq2
      · exfalso
        have hcontains : (((List.insertionSort byCreatedLe c).take
            (max 1 ((List.insertionSort byCreatedLe c).length / 10))).map
              (·.1)).contains q.1 = true :=
          List.elem_iff.mpr (List.mem_map_of_mem (·.1) hq1)
        have h0 := List.of_mem_filter hq
        simp only [] at h0
        rw [decide_eq_true_eq] at h0
        exact h0 hcontains
      · exact hq2
    have hsorted := List.sorted_insertionSort byCreatedLe c
    rw [← List.take_append_drop
      (max 1 ((List.insertionSort byCreatedLe c).length / 10))
      (List.insertionSort byCreatedLe c)] at hsorted
    exact (List.pairwise_append.mp hsorted).2.2 p hptake q hqdrop

end TTSCache

namespace TTSCache

/-- C7 (amended): provided `max_size ≥ 1`, a submit that is about to insert
while the map holds at least `max_size` entries first removes exactly
`max(1, len / 10)` entries — at least one, and all of them no younger than
any survivor — and a map that held at most `max_size` entries before any
submit holds at most `max_size` entries after it. -/
theorem submit_size_bound (cfg : CacheConfig) (st : CacheState)
    (text model : String) (now : ℚ) (outcome : Except String Audio)
    (hmax : 1 ≤ cfg.max_size)
    (hnodup : (st.cache.map (·.1)).Nodup)
    (hlen : st.cache.length ≤ cfg.max_size) :
    (submit cfg st text model now outcome).2.cache.length ≤ cfg.max_size ∧
    (cfg.max_size ≤ st.cache.length →
      (evict_if_needed cfg st.cache).length =
        st.cache.length - max 1 (st.cache.length / 10) ∧
      (evict_if_needed cfg st.cache).length + 1 ≤ st.cache.length ∧
      ∀ p ∈ st.cache, p ∉ evict_if_needed cfg st.cache →
        ∀ q ∈ evict_if_needed cfg st.cache,
          p.2.created_at ≤ q.2.created_at) := by
  have hpos_of : cfg.max_size ≤ st.cache.length → 1 ≤ st.cache.length :=
    fun h => le_trans hmax h
  constructor
  · cases hk : hasKey st.cache (generate_cache_key text model) with
    | true =>
        rw [submit_of_hasKey now outcome hk]
        exact hlen
    | false =>
        rw [submit_of_fresh now outcome hk]
        simp only [List.length_append, List.length_cons, List.length_nil]
        by_cases htr : cfg.max_size ≤ st.cache.length
        · have hsp := (evict_spec hnodup htr (hpos_of htr)).1
          rw [hsp]
          have hd := Nat.div_le_self st.cache.length 10
          omega
        · have hid : evict_if_needed cfg st.cache = st.cache := by
            simp only [evict_if_needed]
            rw [if_neg htr]
          rw [hid]
          omega
  · intro htr
    have h1 := evict_spec hnodup htr (hpos_of htr)
    refine ⟨h1.1, ?_, h1.2⟩
    rw [h1.1]
    have hd := Nat.div_le_self st.cache.length 10
    have hpos := hpos_of htr
    omega

/-- C7 (counterexample to the claim as stated): at `max_size = 0` the
eviction pass that precedes the insert is triggered by an empty map, removes
nothing — in particular not "at least one" entry — and the submit leaves the
map with one entry, more than `max_size`, although it held at most
`max_size` entries before. -/
theorem submit_size_bound_counterexample :
    ({ max_size := 0, ttl := 3600 } : CacheConfig).max_size ≤
      ({} : CacheState).cache.length ∧
    evict_if_needed { max_size := 0, ttl := 3600 }
      ({} : CacheState).cache = [] ∧
    ({} : CacheState).cache.length ≤
      ({ max_size := 0, ttl := 3600 } : CacheConfig).max_size ∧
    (submit { max_size := 0, ttl := 3600 } {} "t" "m" 0
      (.ok [])).2.cache.length = 1 := by
  refine ⟨by decide, by decide, by decide, ?_⟩
  have hfresh : hasKey ({} : CacheState).cache
      (generate_cache_key "t" "m") = false := rfl
  rw [submit_of_fresh 0 (.ok []) hfresh]
  decide

/-- Witness for C7 (amended) on a one-entry cache at capacity one. -/
theorem submit_size_bound_witness :
    (submit { max_size := 1, ttl := 3600 }
      { cache := [("k1", ⟨"a", "m", none, .pending, 0, none, none, false, 0⟩)] }
      "t" "m" 5 (.ok [])).2.cache.length ≤ 1 ∧
    (evict_if_needed { max_size := 1, ttl := 3600 }
      [("k1", ⟨"a", "m", none, .pending, 0, none, none, false, 0⟩)]).length =
      0 := by
  have h := submit_size_bound { max_size := 1, ttl := 3600 }
    { cache := [("k1", ⟨"a", "m", none, .pending, 0, none, none, false, 0⟩)] }
    "t" "m" 5 (.ok []) (by decide) (by decide) (by decide)
  refine ⟨h.1, ?_⟩
  have h2 := (h.2 (by decide)).1
  rw [h2]
  decide

end TTSCache

namespace TTSCache

theorem get_state_eq_phase1 (cfg : CacheConfig) (st : CacheState)
    (text model : String) (timeout : ℚ) (gim : Bool) (now : ℚ)
    (outcome : Except String Audio) (laterSet : Bool)
    (entryAtWake : TTSCacheEntry) :
    (get cfg st text model timeout gim now outcome laterSet entryAtWake).2 =
      (get_phase1 cfg st text model gim now outcome).2 := by
  rcases hp : get_phase1 cfg st text model gim now outcome with ⟨gs, st'⟩
  cases gs <;> simp [get, hp]

theorem get_phase1_counters (cfg : CacheConfig) (st : CacheState)
    (text model : String) (gim : Bool) (now : ℚ)
    (outcome : Except String Audio) :
    ((get_phase1 cfg st text model gim now outcome).2.hit_count =
      if hasKey st.cache (generate_cache_key text model) = true
        then st.hit_count + 1 else st.hit_count) ∧
    ((get_phase1 cfg st text model gim now outcome).2.miss_count =
      if hasKey st.cache (generate_cache_key text model) = true
        then st.miss_count else st.miss_count + 1) := by
  have hkey : hasKey st.cache (generate_cache_key text model) =
      (findEntry st.cache (generate_cache_key text model)).isSome := by
    unfold hasKey findEntry
    cases List.find? (fun p => p.1 == generate_cache_key text model)
      st.cache <;> rfl
  cases hfind : findEntry st.cache (generate_cache_key text model) with
  | some e =>
      rw [hfind] at hkey
      simp only [get_phase1, hfind, hkey]
      exact ⟨rfl, rfl⟩
  | none =>
      rw [hfind] at hkey
      simp only [get_phase1, hfind, hkey]
      cases gim with
      | false => simp
      | true =>
          simp only [Bool.true_eq_false]
          have hsub := submit_counters cfg
            { st with miss_count := st.miss_count + 1 } text model now outcome
          cases hfind2 : findEntry (submit cfg
              { st with miss_count := st.miss_count + 1 } text model now
                outcome).2.cache (generate_cache_key text model) with
          | none => simp [hfind2, hsub.1, hsub.2]
          | some e => simp [hfind2, hsub.1, hsub.2]

/-- C8: a get that finds an entry for the key (whatever its status) bumps
the hit counter by one and leaves the miss counter alone; a get that finds
none bumps the miss counter by one (whether or not it then generates) and
leaves the hit counter alone; and submit itself never touches either
counter. -/
theorem get_hit_miss_accounting (cfg : CacheConfig) (st : CacheState)
    (text model : String) (timeout : ℚ) (gim : Bool) (now : ℚ)
    (outcome : Except String Audio) (laterSet : Bool)
    (entryAtWake : TTSCacheEntry) :
    ((get cfg st text model timeout gim now outcome laterSet
        entryAtWake).2.hit_count =
      if hasKey st.cache (generate_cache_key text model) = true
        then st.hit_count + 1 else st.hit_count) ∧
    ((get cfg st text model timeout gim now outcome laterSet
        entryAtWake).2.miss_count =
      if hasKey st.cache (generate_cache_key text model) = true
        then st.miss_count else st.miss_count + 1) ∧
    (submit cfg st text model now outcome).2.hit_count = st.hit_count ∧
    (submit cfg st text model now outcome).2.miss_count = st.miss_count := by
  have hframe := get_state_eq_phase1 cfg st text model timeout gim now
    outcome laterSet entryAtWake
  have hcnt := get_phase1_counters cfg st text model gim now outcome
  have hsub := submit_counters cfg st text model now outcome
  rw [hframe]
  exact ⟨hcnt.1, hcnt.2, hsub.1, hsub.2⟩

/-- Witness for C8: a get on an empty cache is a miss even though it
generates on demand. -/
theorem get_hit_miss_accounting_witness :
    ((get {} {} "t" "m" 60 true 0 (.ok [1]) false
        ⟨"t", "m", none, .pending, 0, none, none, false, 0⟩).2.hit_count =
      if hasKey ({} : CacheState).cache (generate_cache_key "t" "m") = true
        then ({} : CacheState).hit_count + 1
        else ({} : CacheState).hit_count) ∧
    ((get {} {} "t" "m" 60 true 0 (.ok [1]) false
        ⟨"t", "m", none, .pending, 0, none, none, false, 0⟩).2.miss_count =
      if hasKey ({} : CacheState).cache (generate_cache_key "t" "m") = true
        then ({} : CacheState).miss_count
        else ({} : CacheState).miss_count + 1) ∧
    (submit {} {} "t" "m" 0 (.ok [1])).2.hit_count =
      ({} : CacheState).hit_count ∧
    (submit {} {} "t" "m" 0 (.ok [1])).2.miss_count =
      ({} : CacheState).miss_count :=
  get_hit_miss_accounting {} {} "t" "m" 60 true 0 (.ok [1]) false
    ⟨"t", "m", none, .pending, 0, none, none, false, 0⟩

end TTSCache

namespace TTSCache

/-- C9: a get that finds (or creates) an entry that is neither completed nor
failed proceeds to wait on the entry's completion signal; the wait phase
leaves the cache state exactly as the pre-wait phase left it (no task is
cancelled, no entry removed); the value returned after the wait is the
woken entry's audio when the signal fired and the entry is completed, and
null otherwise; and on a timed-out wait — in particular always when the
timeout is 0 or negative — the value is null. -/
theorem get_wait_semantics (cfg : CacheConfig) (st : CacheState)
    (text model : String) (timeout : ℚ) (gim : Bool) (now : ℚ)
    (outcome : Except String Audio) (laterSet : Bool)
    (entryAtWake : TTSCacheEntry) :
    ((get cfg st text model timeout gim now outcome laterSet
        entryAtWake).2 =
      (get_phase1 cfg st text model gim now outcome).2) ∧
    (∀ e, findEntry st.cache (generate_cache_key text model) = some e →
      e.status ≠ .completed → e.status ≠ .failed →
      (get_phase1 cfg st text model gim now outcome).1 =
        .waitOn (generate_cache_key text model)) ∧
    (hasKey st.cache (generate_cache_key text model) = false → gim = true →
      (get_phase1 cfg st text model gim now outcome).1 =
        .waitOn (generate_cache_key text model)) ∧
    (∀ k', (get_phase1 cfg st text model gim now outcome).1 = .waitOn k' →
      (get cfg st text model timeout gim now outcome laterSet
        entryAtWake).1 =
        get_wait_value (wait_for_signal timeout laterSet) entryAtWake) ∧
    (∀ k', (get_phase1 cfg st text model gim now outcome).1 = .waitOn k' →
      (laterSet = false ∨ timeout ≤ 0) →
      (get cfg st text model timeout gim now outcome laterSet
        entryAtWake).1 = none) ∧
    (∀ k', (get_phase1 cfg st text model gim now outcome).1 = .waitOn k' →
      wait_for_signal timeout laterSet = true →
      (get cfg st text model timeout gim now outcome laterSet
        entryAtWake).1 =
        if entryAtWake.status = .completed then entryAtWake.audio
          else none) := by
  refine ⟨get_state_eq_phase1 cfg st text model timeout gim now outcome
    laterSet entryAtWake, ?_, ?_, ?_, ?_, ?_⟩
  · intro e hfind hnc hnf
    simp only [get_phase1, hfind]
    unfold afterLookup
    rw [if_neg hnc, if_neg hnf]
  · intro hfresh hgim
    subst hgim
    have hfresh' := hfresh
    unfold hasKey at hfresh'
    have hnone : List.find? (fun p => p.1 == generate_cache_key text model)
        st.cache = none :=
      Option.not_isSome_iff_eq_none.mp (by simp [hfresh'])
    have hfind : findEntry st.cache (generate_cache_key text model) =
        none := by
      unfold findEntry
      rw [hnone]
      rfl
    simp only [get_phase1, hfind]
    have hfresh1 : hasKey
        ({ st with miss_count := st.miss_count + 1 } : CacheState).cache
        (generate_cache_key text model) = false := hfresh
    rw [submit_of_fresh now outcome hfresh1]
    have hfind2 : findEntry (evict_if_needed cfg st.cache ++
        [(generate_cache_key text model,
          ({ text := text, model := model, created_at := now,
             eid := st.nextEid } : TTSCacheEntry))])
        (generate_cache_key text model) =
        some ({ text := text, model := model, created_at := now,
                eid := st.nextEid } : TTSCacheEntry) :=
      findEntry_append_fresh (evict_hasKey_false hfresh) _
    simp only [hfind2]
    rfl
  · intro k' hwait
    rcases hp : get_phase1 cfg st text model gim now outcome with ⟨gs, st'⟩
    rw [hp] at hwait
    simp only at hwait
    subst hwait
    simp [get, hp]
  · intro k' hwait hnull
    rcases hp : get_phase1 cfg st text model gim now outcome with ⟨gs, st'⟩
    rw [hp] at hwait
    simp only at hwait
    subst hwait
    rcases hnull with h | h
    · subst h
      simp [get, hp, get_wait_value, wait_for_signal]
    · simp [get, hp, get_wait_value, wait_for_signal, if_pos h]
  · intro k' hwait hsig
    rcases hp : get_phase1 cfg st text model gim now outcome with ⟨gs, st'⟩
    rw [hp] at hwait
    simp only at hwait
    subst hwait
    simp [get, hp, get_wait_value, hsig]

/-- Witness for C9: a get with `generate_if_missing` on an empty cache
creates a pending entry and proceeds to wait; with a timeout of 0 the wait
returns null immediately. -/
theorem get_wait_semantics_witness :
    (get_phase1 {} {} "t" "m" true 0 (.ok [1])).1 =
      .waitOn (generate_cache_key "t" "m") ∧
    (get {} {} "t" "m" 0 true 0 (.ok [1]) true
      ⟨"t", "m", none, .pending, 0, none, none, false, 0⟩).1 = none := by
  have h := get_wait_semantics {} {} "t" "m" 0 true 0 (.ok [1]) true
    ⟨"t", "m", none, .pending, 0, none, none, false, 0⟩
  have hphase := h.2.2.1 rfl rfl
  exact ⟨hphase, h.2.2.2.2.1 _ hphase (Or.inr (by norm_num))⟩

end TTSCache

namespace TTSCache

/-- C10: the cache key is the SHA-256 hex digest of `model ++ ":" ++ text`,
so equal encoded contents give equal keys — but the encoding is not
injective: the distinct pairs (text "c", model "a:b") and (text "b:c",
model "a") encode to the same content "a:b:c", get the same key, and a
submission of the second right after the first is absorbed by the first's
cache entry. -/
theorem cache_key_collision :
    (∀ t m t' m', m ++ ":" ++ t = m' ++ ":" ++ t' →
      generate_cache_key t m = generate_cache_key t' m') ∧
    (("c", "a:b") ≠ (("b:c", "a") : String × String)) ∧
    generate_cache_key "c" "a:b" = generate_cache_key "b:c" "a" ∧
    (∀ (cfg : CacheConfig) (st : CacheState) (now now' : ℚ)
        (out out' : Except String Audio),
      hasKey st.cache (generate_cache_key "c" "a:b") = false →
      submit cfg (submit cfg st "c" "a:b" now out).2 "b:c" "a" now' out' =
        (generate_cache_key "c" "a:b",
         (submit cfg st "c" "a:b" now out).2)) := by
  have hkeyeq : generate_cache_key "c" "a:b" =
      generate_cache_key "b:c" "a" := by
    unfold generate_cache_key
    exact congrArg SHA256.sha256hex (by decide)
  refine ⟨?_, by decide, hkeyeq, ?_⟩
  · intro t m t' m' h
    unfold generate_cache_key
    rw [h]
  · intro cfg st now now' out out' hfresh
    rw [submit_of_fresh now out hfresh]
    have hhk : hasKey (evict_if_needed cfg st.cache ++
        [(generate_cache_key "c" "a:b",
          ({ text := "c", model := "a:b", created_at := now,
             eid := st.nextEid } : TTSCacheEntry))])
        (generate_cache_key "b:c" "a") = true := by
      rw [← hkeyeq]
      exact hasKey_append_self _ _ _
    rw [submit_of_hasKey now' out' hhk, ← hkeyeq]

/-- Witness for C10: the colliding pair shares one entry from an empty
cache. -/
theorem cache_key_collision_witness :
    generate_cache_key "c" "a:b" = generate_cache_key "b:c" "a" ∧
    submit {} (submit {} {} "c" "a:b" 0 (.ok [1])).2 "b:c" "a" 1 (.ok [2]) =
      (generate_cache_key "c" "a:b",
       (submit {} {} "c" "a:b" 0 (.ok [1])).2) := by
  have h := cache_key_collision
  exact ⟨h.1 "c" "a:b" "b:c" "a" (by decide),
    h.2.2.2 {} {} 0 1 (.ok [1]) (.ok [2]) rfl⟩

end TTSCache

namespace TTSCache

theorem findEntry_eq_some_iff {c : List (String × TTSCacheEntry)}
    (hkeys : (c.map (·.1)).Nodup) {k : String} {e : TTSCacheEntry} :
    findEntry c k = some e ↔ (k, e) ∈ c := by
  constructor
  · intro h
    unfold findEntry at h
    cases hf : c.find? (fun p => p.1 == k) with
    | none => rw [hf] at h; exact absurd h (by simp)
    | some p =>
        rw [hf] at h
        have hp := List.find?_some hf
        have hpm := List.mem_of_find?_eq_some hf
        have hk : p.1 = k := by simpa using hp
        have he : p.2 = e := by simpa using h
        have hpe : p = (k, e) := Prod.ext_iff.mpr ⟨hk, he⟩
        exact hpe ▸ hpm
  · intro hmem
    have hsome : (c.find? (fun p => p.1 == k)).isSome = true :=
      List.find?_isSome.mpr ⟨(k, e), hmem, by simp⟩
    rcases Option.isSome_iff_exists.mp hsome with ⟨p, hp⟩
    have hpk : p.1 = k := by simpa using List.find?_some hp
    have hpm := List.mem_of_find?_eq_some hp
    have hpe : p = (k, e) :=
      List.inj_on_of_nodup_map hkeys hpm hmem (by rw [hpk])
    unfold findEntry
    rw [hp, hpe]
    rfl

theorem findEntry_eq_none_iff {c : List (String × TTSCacheEntry)}
    {k : String} : findEntry c k = none ↔ ∀ p ∈ c, p.1 ≠ k := by
  unfold findEntry
  cases hf : c.find? (fun p => p.1 == k) with
  | none =>
      simp only [Option.map_none']
      constructor
      · intro _ p hp hcon
        have := List.find?_eq_none.mp hf p hp
        simp [hcon] at this
      · intro _; trivial
  | some p =>
      simp only [Option.map_some']
      constructor
      · intro h; exact absurd h (by simp)
      · intro h
        have hk : p.1 = k := by simpa using List.find?_some hf
        exact absurd hk (h p (List.mem_of_find?_eq_some hf))

theorem findTask_eq_some_iff {ts : List (Nat × GenTask)}
    (htids : (ts.map (·.1)).Nodup) {tid : Nat} {t : GenTask} :
    findTask ts tid = some t ↔ (tid, t) ∈ ts := by
  constructor
  · intro h
    unfold findTask at h
    cases hf : ts.find? (fun p => p.1 == tid) with
    | none => rw [hf] at h; exact absurd h (by simp)
    | some p =>
        rw [hf] at h
        have hp := List.find?_some hf
        have hpm := List.mem_of_find?_eq_some hf
        have hk : p.1 = tid := by simpa using hp
        have he : p.2 = t := by simpa using h
        exact (Prod.ext_iff.mpr ⟨hk, he⟩ : p = (tid, t)) ▸ hpm
  · intro hmem
    have hsome : (ts.find? (fun p => p.1 == tid)).isSome = true :=
      List.find?_isSome.mpr ⟨(tid, t), hmem, by simp⟩
    rcases Option.isSome_iff_exists.mp hsome with ⟨p, hp⟩
    have hpk : p.1 = tid := by simpa using List.find?_some hp
    have hpm := List.mem_of_find?_eq_some hp
    have hpe : p = (tid, t) :=
      List.inj_on_of_nodup_map htids hpm hmem (by rw [hpk])
    unfold findTask
    rw [hp, hpe]
    rfl

theorem statusOfEid_some_iff {st : CacheState}
    (heids : (st.cache.map (·.2.eid)).Nodup) {eid : Nat} {s1 : CacheStatus} :
    statusOfEid eid st = some s1 ↔
      ∃ p ∈ st.cache, p.2.eid = eid ∧ p.2.status = s1 := by
  constructor
  · intro h
    unfold statusOfEid at h
    cases hf : (st.cache.map (·.2)).find? (fun e => e.eid == eid) with
    | none => rw [hf] at h; exact absurd h (by simp)
    | some e0 =>
        rw [hf] at h
        have he0 := List.find?_some hf
        have he0m := List.mem_of_find?_eq_some hf
        rcases List.mem_map.mp he0m with ⟨p, hpm, hpe⟩
        exact ⟨p, hpm, by rw [hpe]; simpa using he0,
          by rw [hpe]; simpa using h⟩
  · intro ⟨p, hpm, hpe, hps⟩
    have hsome : ((st.cache.map (·.2)).find?
        (fun e => e.eid == eid)).isSome = true :=
      List.find?_isSome.mpr ⟨p.2, List.mem_map_of_mem _ hpm,
        by simp [hpe]⟩
    rcases Option.isSome_iff_exists.mp hsome with ⟨e0, he0⟩
    have he0eid : e0.eid = eid := by simpa using List.find?_some he0
    rcases List.mem_map.mp (List.mem_of_find?_eq_some he0) with
      ⟨q, hqm, hqe⟩
    have hmapnodup : ((st.cache.map (·.2)).map (fun e => e.eid)).Nodup := by
      rw [List.map_map]
      exact heids
    have hq2 : q.2 ∈ st.cache.map (·.2) := List.mem_map_of_mem _ hqm
    have hp2 : p.2 ∈ st.cache.map (·.2) := List.mem_map_of_mem _ hpm
    have heq : q.2 = p.2 :=
      List.inj_on_of_nodup_map hmapnodup hq2 hp2
        (by rw [hqe, he0eid, hpe])
    have hstat : e0.status = s1 := by rw [← hqe, heq, hps]
    unfold statusOfEid
    rw [he0]
    simp [hstat]

theorem statusOfEid_none_iff {st : CacheState} {eid : Nat} :
    statusOfEid eid st = none ↔ ∀ p ∈ st.cache, p.2.eid ≠ eid := by
  unfold statusOfEid
  cases hf : (st.cache.map (·.2)).find? (fun e => e.eid == eid) with
  | none =>
      simp only [Option.map_none']
      constructor
      · intro _ p hp hcon
        have := List.find?_eq_none.mp hf p.2 (List.mem_map_of_mem _ hp)
        simp [hcon] at this
      · intro _; trivial
  | some e0 =>
      simp only [Option.map_some']
      constructor
      · intro h; exact absurd h (by simp)
      · intro h
        have he0 : e0.eid = eid := by simpa using List.find?_some hf
        rcases List.mem_map.mp (List.mem_of_find?_eq_some hf) with
          ⟨p, hpm, hpe⟩
        exact absurd (by rw [hpe]; exact he0) (h p hpm)

end TTSCache

namespace TTSCache

theorem stepOk_refl (s : CacheStatus) : stepOk s s = true := by
  cases s <;> rfl

theorem hasTaskFor_false_iff (ts : List (Nat × GenTask)) (k : String) :
    hasTaskFor ts k = false ↔ ∀ q ∈ ts, q.2.key ≠ k := by
  unfold hasTaskFor
  rw [← Bool.not_eq_true, List.any_eq_true]
  constructor
  · intro h q hq hcon
    exact h ⟨q, hq, by simp [hcon]⟩
  · intro h ⟨q, hq, hcon⟩
    exact h q hq (by simpa using hcon)

theorem findEntry_filter_some {c : List (String × TTSCacheEntry)}
    (hkeys : (c.map (·.1)).Nodup) {pred : String × TTSCacheEntry → Bool}
    {k : String} {e : TTSCacheEntry}
    (h : findEntry (c.filter pred) k = some e) : findEntry c k = some e := by
  have hkeys' : ((c.filter pred).map (·.1)).Nodup :=
    ((List.filter_sublist c).map (·.1)).nodup hkeys
  have hmem := (findEntry_eq_some_iff hkeys').mp h
  exact (findEntry_eq_some_iff hkeys).mpr (List.mem_of_mem_filter hmem)

theorem findEntry_append_singleton_ne {c : List (String × TTSCacheEntry)}
    {k k' : String} (hne : k' ≠ k) (e : TTSCacheEntry) :
    findEntry (c ++ [(k, e)]) k' = findEntry c k' := by
  unfold findEntry
  rw [List.find?_append]
  cases hf : c.find? (fun p => p.1 == k') with
  | some p => rfl
  | none =>
      simp only [Option.or]
      have : ((k, e).1 == k') = false := by simpa using fun h => hne h.symm
      simp [List.find?, this]

theorem findEntry_decomp_here {as bs : List (String × TTSCacheEntry)}
    {kk : String} (has : ∀ p ∈ as, p.1 ≠ kk) (x : TTSCacheEntry) :
    findEntry (as ++ (kk, x) :: bs) kk = some x := by
  unfold findEntry
  rw [List.find?_append]
  have hnone : as.find? (fun p => p.1 == kk) = none := by
    rw [List.find?_eq_none]
    intro p hp
    simp only [beq_iff_eq]
    exact has p hp
  rw [hnone]
  simp [List.find?]

theorem findEntry_decomp_other {as bs : List (String × TTSCacheEntry)}
    {kk k' : String} (hne : k' ≠ kk) (x y : TTSCacheEntry) :
    findEntry (as ++ (kk, x) :: bs) k' = findEntry (as ++ (kk, y) :: bs) k' := by
  unfold findEntry
  rw [List.find?_append, List.find?_append]
  cases hf : as.find? (fun p => p.1 == k') with
  | some p => rfl
  | none =>
      have hkk : ((kk, x).1 == k') = false := by
        simpa using fun h => hne h.symm
      have hkk' : ((kk, y).1 == k') = false := by
        simpa using fun h => hne h.symm
      simp [List.find?, hkk, hkk']

theorem setEntry_decomp {c : List (String × TTSCacheEntry)}
    (hkeys : (c.map (·.1)).Nodup) {kk : String} {e : TTSCacheEntry}
    (hfind : findEntry c kk = some e) (e' : TTSCacheEntry) :
    ∃ as bs, c = as ++ (kk, e) :: bs ∧
      setEntry c kk e' = as ++ (kk, e') :: bs ∧
      (∀ p ∈ as, p.1 ≠ kk) ∧ (∀ p ∈ bs, p.1 ≠ kk) := by
  induction c with
  | nil => exact absurd hfind (by simp [findEntry])
  | cons p c ih =>
      simp only [List.map_cons] at hkeys
      have hkeys' : (c.map (·.1)).Nodup := (List.nodup_cons.mp hkeys).2
      have hcons : setEntry (p :: c) kk e' =
          (if p.1 == kk then (p.1, e') else p) :: setEntry c kk e' := rfl
      by_cases hp : p.1 = kk
      · have hfind' : findEntry (p :: c) kk = some p.2 := by
          unfold findEntry
          rw [List.find?_cons_of_pos _ (by simpa using hp)]
          rfl
        have hpe : p.2 = e := by
          rw [hfind'] at hfind
          simpa using hfind
        have hnotin : ∀ q ∈ c, q.1 ≠ kk := by
          intro q hq hcon
          have hh := (List.nodup_cons.mp hkeys).1
          rw [hp] at hh
          exact hh (hcon ▸ List.mem_map_of_mem (·.1) hq)
        have hpkE : p = (kk, e) := Prod.ext_iff.mpr ⟨hp, hpe⟩
        refine ⟨[], c, ?_, ?_, by simp, hnotin⟩
        · simp only [List.nil_append]
          rw [hpkE]
        · simp only [List.nil_append]
          rw [hcons, if_pos (by simpa using hp)]
          have htail : setEntry c kk e' = c := by
            unfold setEntry
            have hq : ∀ q ∈ c,
                (if q.1 == kk then (q.1, e') else q) = q := by
              intro q hq
              rw [if_neg (by simpa using hnotin q hq)]
            rw [List.map_congr_left hq]
            simp
          rw [htail, hp]
      · have hfind' : findEntry (p :: c) kk = findEntry c kk := by
          unfold findEntry
          rw [List.find?_cons_of_neg _ (by simpa using hp)]
        rw [hfind'] at hfind
        rcases ih hkeys' hfind with ⟨as, bs, hc, hset, has, hbs⟩
        refine ⟨p :: as, bs, by rw [hc]; rfl, ?_,
          fun q hq => by
            rcases List.mem_cons.mp hq with rfl | hq'
            · exact hp
            · exact has q hq', hbs⟩
        rw [hcons, if_neg (by simpa using hp), hset]
        rfl

theorem setTask_decomp {ts : List (Nat × GenTask)}
    (htids : (ts.map (·.1)).Nodup) {tid : Nat} {t : GenTask}
    (hfind : findTask ts tid = some t) (t' : GenTask) :
    ∃ ts1 ts2, ts = ts1 ++ (tid, t) :: ts2 ∧
      setTask ts tid t' = ts1 ++ (tid, t') :: ts2 := by
  induction ts with
  | nil => exact absurd hfind (by simp [findTask])
  | cons p ts ih =>
      simp only [List.map_cons] at htids
      have htids' : (ts.map (·.1)).Nodup := (List.nodup_cons.mp htids).2
      have hcons : setTask (p :: ts) tid t' =
          (if p.1 == tid then (p.1, t') else p) :: setTask ts tid t' := rfl
      by_cases hp : p.1 = tid
      · have hfind' : findTask (p :: ts) tid = some p.2 := by
          unfold findTask
          rw [List.find?_cons_of_pos _ (by simpa using hp)]
          rfl
        have hpe : p.2 = t := by
          rw [hfind'] at hfind
          simpa using hfind
        have hnotin : ∀ q ∈ ts, q.1 ≠ tid := by
          intro q hq hcon
          have hh := (List.nodup_cons.mp htids).1
          rw [hp] at hh
          exact hh (hcon ▸ List.mem_map_of_mem (·.1) hq)
        have hpkE : p = (tid, t) := Prod.ext_iff.mpr ⟨hp, hpe⟩
        refine ⟨[], ts, ?_, ?_⟩
        · simp only [List.nil_append]
          rw [hpkE]
        · simp only [List.nil_append]
          rw [hcons, if_pos (by simpa using hp)]
          have htail : setTask ts tid t' = ts := by
            unfold setTask
            have hq : ∀ q ∈ ts,
                (if q.1 == tid then (q.1, t') else q) = q := by
              intro q hq
              rw [if_neg (by simpa using hnotin q hq)]
            rw [List.map_congr_left hq]
            simp
          rw [htail, hp]
      · have hfind' : findTask (p :: ts) tid = findTask ts tid := by
          unfold findTask
          rw [List.find?_cons_of_neg _ (by simpa using hp)]
        rw [hfind'] at hfind
        rcases ih htids' hfind with ⟨ts1, ts2, hc, hset⟩
        refine ⟨p :: ts1, ts2, by rw [hc]; rfl, ?_⟩
        rw [hcons, if_neg (by simpa using hp), hset]
        rfl

end TTSCache

namespace TTSCache

theorem stepFacts_of_sublist {s s' : CacheState}
    (hsub : s'.cache.Sublist s.cache) (hne : s'.nextEid = s.nextEid)
    (heids : (s.cache.map (·.2.eid)).Nodup) : StepFacts s s' := by
  have heids' : (s'.cache.map (·.2.eid)).Nodup :=
    List.Nodup.sublist (hsub.map (·.2.eid)) heids
  constructor
  · exact le_of_eq hne.symm
  · intro eid s1 s2 h1 h2
    rcases (statusOfEid_some_iff heids').mp h2 with ⟨p', hp'm, hp'e, hp's⟩
    rcases (statusOfEid_some_iff heids).mp h1 with ⟨p, hpm, hpe, hps⟩
    have hp'm2 : p' ∈ s.cache := hsub.subset hp'm
    have hpp : p' = p :=
      List.inj_on_of_nodup_map heids hp'm2 hpm
        (by rw [hp'e, hpe])
    rw [← hps, ← hp's, hpp]
    exact stepOk_refl _
  · intro eid h1 _
    rw [statusOfEid_none_iff] at h1 ⊢
    intro p hp
    exact h1 p (hsub.subset hp)
  · intro eid s2 h1 h2
    rw [statusOfEid_none_iff] at h1
    rcases (statusOfEid_some_iff heids').mp h2 with ⟨p', hp'm, hp'e, _⟩
    exact absurd hp'e (h1 p' (hsub.subset hp'm))

theorem stepFacts_of_append_fresh {s s' : CacheState}
    {c0 : List (String × TTSCacheEntry)} {k : String} {new : TTSCacheEntry}
    (hc : s'.cache = c0 ++ [(k, new)]) (hsub : c0.Sublist s.cache)
    (hnew_eid : new.eid = s.nextEid)
    (hnew_status : new.status = CacheStatus.pending)
    (hne : s'.nextEid = s.nextEid + 1)
    (heids : (s.cache.map (·.2.eid)).Nodup)
    (hbound : ∀ p ∈ s.cache, p.2.eid < s.nextEid) : StepFacts s s' := by
  have hc0sub : (c0.map (·.2.eid)).Sublist (s.cache.map (·.2.eid)) :=
    hsub.map (·.2.eid)
  have hc0nodup : (c0.map (·.2.eid)).Nodup :=
    List.Nodup.sublist hc0sub heids
  have hfreshid : s.nextEid ∉ c0.map (·.2.eid) := by
    intro hcon
    rcases List.mem_map.mp hcon with ⟨p, hpm, hpe⟩
    have := hbound p (hsub.subset hpm)
    omega
  have heids' : (s'.cache.map (·.2.eid)).Nodup := by
    rw [hc, List.map_append]
    rw [List.nodup_append]
    refine ⟨hc0nodup, by simp, ?_⟩
    intro a ha hb
    simp only [List.map_cons, List.map_nil, List.mem_singleton] at hb
    rw [hb, hnew_eid] at ha
    exact hfreshid ha
  have hmem' : ∀ p' ∈ s'.cache, p' ∈ c0 ∨ p' = (k, new) := by
    intro p' hp'
    rw [hc] at hp'
    rcases List.mem_append.mp hp' with h | h
    · exact Or.inl h
    · exact Or.inr (by simpa using h)
  have hnewmem : (k, new) ∈ s'.cache := by
    rw [hc]
    exact List.mem_append.mpr (Or.inr (by simp))
  constructor
  · omega
  · intro eid s1 s2 h1 h2
    rcases (statusOfEid_some_iff heids).mp h1 with ⟨p, hpm, hpe, hps⟩
    rcases (statusOfEid_some_iff heids').mp h2 with ⟨p', hp'm, hp'e, hp's⟩
    rcases hmem' p' hp'm with hp'0 | rfl
    · have hpp : p' = p :=
        List.inj_on_of_nodup_map heids (hsub.subset hp'0) hpm
          (by rw [hp'e, hpe])
      rw [← hps, ← hp's, hpp]
      exact stepOk_refl _
    · exfalso
      have h1lt := hbound p hpm
      have : new.eid = eid := hp'e
      rw [hnew_eid] at this
      omega
  · intro eid h1 hlow
    rw [statusOfEid_none_iff] at h1 ⊢
    intro q hq
    rcases hmem' q hq with hq0 | rfl
    · exact h1 q (hsub.subset hq0)
    · simp only []
      rw [hnew_eid]
      omega
  · intro eid s2 h1 h2
    rw [statusOfEid_none_iff] at h1
    rcases (statusOfEid_some_iff heids').mp h2 with ⟨p', hp'm, hp'e, hp's⟩
    rcases hmem' p' hp'm with hp'0 | rfl
    · exact absurd hp'e (h1 p' (hsub.subset hp'0))
    · rw [← hp's, hnew_status]

theorem stepFacts_of_update {s s' : CacheState}
    {as bs : List (String × TTSCacheEntry)} {kk : String}
    {e e' : TTSCacheEntry}
    (hcache : s.cache = as ++ (kk, e) :: bs)
    (hcache' : s'.cache = as ++ (kk, e') :: bs)
    (heid : e'.eid = e.eid)
    (hstep : stepOk e.status e'.status = true)
    (hne : s'.nextEid = s.nextEid)
    (heids : (s.cache.map (·.2.eid)).Nodup) : StepFacts s s' := by
  have hemem : (kk, e) ∈ s.cache := by
    rw [hcache]
    exact List.mem_append.mpr (Or.inr (List.mem_cons_self _ _))
  have heids' : (s'.cache.map (·.2.eid)).Nodup := by
    have hmapeq : s'.cache.map (·.2.eid) = s.cache.map (·.2.eid) := by
      rw [hcache, hcache']
      simp only [List.map_append, List.map_cons]
      rw [heid]
    rw [hmapeq]
    exact heids
  have hmem' : ∀ p' ∈ s'.cache, (p' ∈ s.cache) ∨ p' = (kk, e') := by
    intro p' hp'
    rw [hcache'] at hp'
    rcases List.mem_append.mp hp' with h | h
    · exact Or.inl (by rw [hcache]; exact List.mem_append.mpr (Or.inl h))
    · rcases List.mem_cons.mp h with h | h
      · exact Or.inr h
      · exact Or.inl (by
          rw [hcache]
          exact List.mem_append.mpr (Or.inr (List.mem_cons_of_mem _ h)))
  constructor
  · exact le_of_eq hne.symm
  · intro eid s1 s2 h1 h2
    rcases (statusOfEid_some_iff heids).mp h1 with ⟨p, hpm, hpe, hps⟩
    rcases (statusOfEid_some_iff heids').mp h2 with ⟨p', hp'm, hp'e, hp's⟩
    rcases hmem' p' hp'm with hp'0 | rfl
    · have hpp : p' = p :=
        List.inj_on_of_nodup_map heids hp'0 hpm (by rw [hp'e, hpe])
      rw [← hps, ← hp's, hpp]
      exact stepOk_refl _
    · have hpke : p = (kk, e) := by
        refine List.inj_on_of_nodup_map heids hpm hemem ?_
        show p.2.eid = e.eid
        rw [hpe, ← hp'e]
        exact heid
      rw [← hps, ← hp's, hpke]
      exact hstep
  · intro eid h1 _
    rw [statusOfEid_none_iff] at h1 ⊢
    intro q hq
    rcases hmem' q hq with hq0 | rfl
    · exact h1 q hq0
    · show e'.eid ≠ eid
      rw [heid]
      exact h1 (kk, e) hemem
  · intro eid s2 h1 h2
    rw [statusOfEid_none_iff] at h1
    rcases (statusOfEid_some_iff heids').mp h2 with ⟨p', hp'm, hp'e, hp's⟩
    rcases hmem' p' hp'm with hp'0 | rfl
    · exact absurd hp'e (h1 p' hp'0)
    · exfalso
      apply h1 (kk, e) hemem
      show e.eid = eid
      rw [← heid]
      exact hp'e

end TTSCache

namespace TTSCache

theorem evict_sublist (cfg : CacheConfig) (c : List (String × TTSCacheEntry)) :
    (evict_if_needed cfg c).Sublist c := by
  unfold evict_if_needed
  split
  · exact List.filter_sublist c
  · exact List.Sublist.refl c

theorem evict_findEntry_some {cfg : CacheConfig}
    {c : List (String × TTSCacheEntry)} (hkeys : (c.map (·.1)).Nodup)
    {k : String} {e : TTSCacheEntry}
    (h : findEntry (evict_if_needed cfg c) k = some e) :
    findEntry c k = some e := by
  revert h
  unfold evict_if_needed
  split
  · exact fun h => findEntry_filter_some hkeys h
  · exact id

theorem submit_preserves (cfg : CacheConfig) (st : CacheState)
    (text model : String) (now : ℚ) (out : Except String Audio)
    (hInv : Inv st)
    (hok : hasKey st.cache (generate_cache_key text model) = true ∨
      hasTaskFor st.tasks (generate_cache_key text model) = false) :
    Inv (submit cfg st text model now out).2 ∧
    StepFacts st (submit cfg st text model now out).2 := by
  cases hk : hasKey st.cache (generate_cache_key text model) with
  | true =>
      rw [submit_of_hasKey now out hk]
      exact ⟨hInv,
        stepFacts_of_sublist (List.Sublist.refl _) rfl hInv.eidsNodup⟩
  | false =>
      have htask : hasTaskFor st.tasks
          (generate_cache_key text model) = false := by
        rcases hok with h | h
        · rw [hk] at h
          exact absurd h (by simp)
        · exact h
      have htaskne := (hasTaskFor_false_iff _ _).mp htask
      rw [submit_of_fresh now out hk]
      have hevsub := evict_sublist cfg st.cache
      have hevfresh : hasKey (evict_if_needed cfg st.cache)
          (generate_cache_key text model) = false := evict_hasKey_false hk
      have hevne := (hasKey_false_iff _ _).mp hevfresh
      have hevkeys : ((evict_if_needed cfg st.cache).map (·.1)).Nodup :=
        List.Nodup.sublist (hevsub.map (·.1)) hInv.keysNodup
      have heveids : ((evict_if_needed cfg st.cache).map (·.2.eid)).Nodup :=
        List.Nodup.sublist (hevsub.map (·.2.eid)) hInv.eidsNodup
      have hinv1 : ((evict_if_needed cfg st.cache ++
          [(generate_cache_key text model,
            ({ text := text, model := model, created_at := now,
               eid := st.nextEid } : TTSCacheEntry))]).map (·.1)).Nodup := by
        rw [List.map_append, List.nodup_append]
        refine ⟨hevkeys, by simp, ?_⟩
        intro a ha hb
        simp only [List.map_cons, List.map_nil, List.mem_singleton] at hb
        rcases List.mem_map.mp ha with ⟨p, hpm, hpk⟩
        exact hevne p hpm (by rw [hpk, hb])
      have hinv2 : ∀ p ∈ (evict_if_needed cfg st.cache ++
          [(generate_cache_key text model,
            ({ text := text, model := model, created_at := now,
               eid := st.nextEid } : TTSCacheEntry))]),
          p.2.eid < st.nextEid + 1 := by
        intro p hp
        rcases List.mem_append.mp hp with h | h
        · have := hInv.eidsBound p (hevsub.subset h)
          omega
        · simp only [List.mem_singleton] at h
          rw [h]
          show st.nextEid < st.nextEid + 1
          omega
      have hinv3 : ((evict_if_needed cfg st.cache ++
          [(generate_cache_key text model,
            ({ text := text, model := model, created_at := now,
               eid := st.nextEid } : TTSCacheEntry))]).map (·.2.eid)).Nodup := by
        rw [List.map_append, List.nodup_append]
        refine ⟨heveids, by simp, ?_⟩
        intro a ha hb
        simp only [List.map_cons, List.map_nil, List.mem_singleton] at hb
        rcases List.mem_map.mp ha with ⟨p, hpm, hpk⟩
        have := hInv.eidsBound p (hevsub.subset hpm)
        rw [hpk, hb] at this
        exact absurd this (by simp)
      have hinv4 : ∀ q ∈ (st.tasks ++ [(st.nextTid,
          (⟨generate_cache_key text model, .notStarted, out⟩ : GenTask))]),
          q.1 < st.nextTid + 1 := by
        intro q hq
        rcases List.mem_append.mp hq with h | h
        · have := hInv.tidsBound q h
          omega
        · simp only [List.mem_singleton] at h
          rw [h]
          show st.nextTid < st.nextTid + 1
          omega
      have hinv5 : ((st.tasks ++ [(st.nextTid,
          (⟨generate_cache_key text model, .notStarted, out⟩ : GenTask))]).map
            (·.1)).Nodup := by
        rw [List.map_append, List.nodup_append]
        refine ⟨hInv.tidsNodup, by simp, ?_⟩
        intro a ha hb
        simp only [List.map_cons, List.map_nil, List.mem_singleton] at hb
        rcases List.mem_map.mp ha with ⟨q, hqm, hqk⟩
        have := hInv.tidsBound q hqm
        rw [hqk, hb] at this
        exact absurd this (by simp)
      have hinv6 : ((st.tasks ++ [(st.nextTid,
          (⟨generate_cache_key text model, .notStarted, out⟩ : GenTask))]).map
            (·.2.key)).Nodup := by
        rw [List.map_append, List.nodup_append]
        refine ⟨hInv.taskKeys, by simp, ?_⟩
        intro a ha hb
        simp only [List.map_cons, List.map_nil, List.mem_singleton] at hb
        rcases List.mem_map.mp ha with ⟨q, hqm, hqk⟩
        refine htaskne q hqm ?_
        rw [hqk, hb]
      have hfind2 : findEntry (evict_if_needed cfg st.cache ++
          [(generate_cache_key text model,
            ({ text := text, model := model, created_at := now,
               eid := st.nextEid } : TTSCacheEntry))])
          (generate_cache_key text model) =
          some ({ text := text, model := model, created_at := now,
                  eid := st.nextEid } : TTSCacheEntry) :=
        findEntry_append_fresh hevfresh _
      have hinv7 : ∀ q ∈ (st.tasks ++ [(st.nextTid,
          (⟨generate_cache_key text model, .notStarted, out⟩ : GenTask))]),
          q.2.phase = TaskPhase.notStarted →
          ∀ e, findEntry (evict_if_needed cfg st.cache ++
            [(generate_cache_key text model,
              ({ text := text, model := model, created_at := now,
                 eid := st.nextEid } : TTSCacheEntry))]) q.2.key = some e →
          e.status = CacheStatus.pending := by
        intro q hq hphase e hfind
        rcases List.mem_append.mp hq with h | h
        · have hkne : q.2.key ≠ generate_cache_key text model := htaskne q h
          rw [findEntry_append_singleton_ne hkne] at hfind
          exact hInv.taskNotStarted q h hphase e
            (evict_findEntry_some hInv.keysNodup hfind)
        · simp only [List.mem_singleton] at h
          subst h
          rw [hfind2] at hfind
          have he := Option.some.inj hfind
          rw [← he]
      have hinv8 : ∀ q ∈ (st.tasks ++ [(st.nextTid,
          (⟨generate_cache_key text model, .notStarted, out⟩ : GenTask))]),
          q.2.phase = TaskPhase.started →
          ∀ e, findEntry (evict_if_needed cfg st.cache ++
            [(generate_cache_key text model,
              ({ text := text, model := model, created_at := now,
                 eid := st.nextEid } : TTSCacheEntry))]) q.2.key = some e →
          e.status = CacheStatus.generating := by
        intro q hq hphase e hfind
        rcases List.mem_append.mp hq with h | h
        · have hkne : q.2.key ≠ generate_cache_key text model := htaskne q h
          rw [findEntry_append_singleton_ne hkne] at hfind
          exact hInv.taskStarted q h hphase e
            (evict_findEntry_some hInv.keysNodup hfind)
        · simp only [List.mem_singleton] at h
          subst h
          exact absurd hphase (by simp)
      exact ⟨⟨hinv1, hinv2, hinv3, hinv4, hinv5, hinv6, hinv7, hinv8⟩,
        stepFacts_of_append_fresh rfl hevsub rfl rfl rfl
          hInv.eidsNodup hInv.eidsBound⟩

end TTSCache

namespace TTSCache

theorem get_phase1_preserves (cfg : CacheConfig) (st : CacheState)
    (text model : String) (gim : Bool) (now : ℚ)
    (out : Except String Audio) (hInv : Inv st)
    (hok : gim = false ∨
      hasKey st.cache (generate_cache_key text model) = true ∨
      hasTaskFor st.tasks (generate_cache_key text model) = false) :
    Inv (get_phase1 cfg st text model gim now out).2 ∧
    StepFacts st (get_phase1 cfg st text model gim now out).2 := by
  cases hfind : findEntry st.cache (generate_cache_key text model) with
  | some e =>
      simp only [get_phase1, hfind]
      exact ⟨⟨hInv.keysNodup, hInv.eidsBound, hInv.eidsNodup,
        hInv.tidsBound, hInv.tidsNodup, hInv.taskKeys,
        hInv.taskNotStarted, hInv.taskStarted⟩,
        stepFacts_of_sublist (List.Sublist.refl _) rfl hInv.eidsNodup⟩
  | none =>
      simp only [get_phase1, hfind]
      cases gim with
      | false =>
          exact ⟨⟨hInv.keysNodup, hInv.eidsBound, hInv.eidsNodup,
            hInv.tidsBound, hInv.tidsNodup, hInv.taskKeys,
            hInv.taskNotStarted, hInv.taskStarted⟩,
            stepFacts_of_sublist (List.Sublist.refl _) rfl hInv.eidsNodup⟩
      | true =>
          simp only [if_pos rfl]
          have hInv1 : Inv { st with miss_count := st.miss_count + 1 } :=
            ⟨hInv.keysNodup, hInv.eidsBound, hInv.eidsNodup,
             hInv.tidsBound, hInv.tidsNodup, hInv.taskKeys,
             hInv.taskNotStarted, hInv.taskStarted⟩
          have hok1 : hasKey ({ st with miss_count := st.miss_count + 1 }
                : CacheState).cache (generate_cache_key text model) = true ∨
              hasTaskFor ({ st with miss_count := st.miss_count + 1 }
                : CacheState).tasks
                (generate_cache_key text model) = false := by
            rcases hok with h | h | h
            · exact absurd h (by simp)
            · exact Or.inl h
            · exact Or.inr h
          have hsub := submit_preserves cfg
            { st with miss_count := st.miss_count + 1 } text model now out
            hInv1 hok1
          have hfacts : StepFacts st (submit cfg
              { st with miss_count := st.miss_count + 1 }
              text model now out).2 :=
            ⟨hsub.2.nextEid_mono, hsub.2.statusStep, hsub.2.absentLow,
             hsub.2.freshPending⟩
          cases hfind2 : findEntry (submit cfg
              { st with miss_count := st.miss_count + 1 }
              text model now out).2.cache (generate_cache_key text model) with
          | none => exact ⟨hsub.1, hfacts⟩
          | some e2 => exact ⟨hsub.1, hfacts⟩

theorem removeTask_sublist (ts : List (Nat × GenTask)) (tid : Nat) :
    (removeTask ts tid).Sublist ts := List.filter_sublist ts

theorem taskStart_preserves (st : CacheState) (tid : Nat) (hInv : Inv st) :
    Inv (taskStart st tid) ∧ StepFacts st (taskStart st tid) := by
  cases hft : findTask st.tasks tid with
  | none =>
      simp only [taskStart, hft]
      exact ⟨hInv,
        stepFacts_of_sublist (List.Sublist.refl _) rfl hInv.eidsNodup⟩
  | some t =>
      simp only [taskStart, hft]
      by_cases hphase : t.phase = TaskPhase.notStarted
      · rw [if_pos hphase]
        cases hfe : findEntry st.cache t.key with
        | none =>
            have hsubt := removeTask_sublist st.tasks tid
            refine ⟨⟨hInv.keysNodup, hInv.eidsBound, hInv.eidsNodup,
              fun q hq => hInv.tidsBound q (hsubt.subset hq),
              List.Nodup.sublist (hsubt.map (·.1)) hInv.tidsNodup,
              List.Nodup.sublist (hsubt.map (·.2.key)) hInv.taskKeys,
              fun q hq => hInv.taskNotStarted q (hsubt.subset hq),
              fun q hq => hInv.taskStarted q (hsubt.subset hq)⟩,
              stepFacts_of_sublist (List.Sublist.refl _) rfl hInv.eidsNodup⟩
        | some e =>
            have hqt : (tid, t) ∈ st.tasks :=
              (findTask_eq_some_iff hInv.tidsNodup).mp hft
            have hepending : e.status = CacheStatus.pending :=
              hInv.taskNotStarted (tid, t) hqt hphase e hfe
            rcases setEntry_decomp hInv.keysNodup hfe
              { e with status := CacheStatus.generating } with
              ⟨as, bs, hcache, hset, has, hbs⟩
            rcases setTask_decomp hInv.tidsNodup hft
              { t with phase := TaskPhase.started } with
              ⟨ts1, ts2, htasks, htset⟩
            have hkeys' : ((setEntry st.cache t.key
                { e with status := CacheStatus.generating }).map (·.1)).Nodup := by
              rw [hset]
              have : (st.cache.map (·.1)) =
                  ((as ++ (t.key, { e with status := CacheStatus.generating })
                    :: bs).map (·.1)) := by
                rw [hcache]
                simp [List.map_append]
              rw [← this]
              exact hInv.keysNodup
            have heids' : ((setEntry st.cache t.key
                { e with status := CacheStatus.generating }).map
                  (·.2.eid)).Nodup := by
              rw [hset]
              have : (st.cache.map (·.2.eid)) =
                  ((as ++ (t.key, { e with status := CacheStatus.generating })
                    :: bs).map (·.2.eid)) := by
                rw [hcache]
                simp [List.map_append]
              rw [← this]
              exact hInv.eidsNodup
            have hmemc' : ∀ p ∈ setEntry st.cache t.key
                { e with status := CacheStatus.generating },
                p ∈ st.cache ∨
                p = (t.key, { e with status := CacheStatus.generating }) := by
              intro p hp
              rw [hset] at hp
              rcases List.mem_append.mp hp with h | h
              · exact Or.inl (by
                  rw [hcache]
                  exact List.mem_append.mpr (Or.inl h))
              · rcases List.mem_cons.mp h with h | h
                · exact Or.inr h
                · exact Or.inl (by
                    rw [hcache]
                    exact List.mem_append.mpr
                      (Or.inr (List.mem_cons_of_mem _ h)))
            have hmemt' : ∀ q ∈ setTask st.tasks tid
                { t with phase := TaskPhase.started },
                q ∈ st.tasks ∨
                q = (tid, { t with phase := TaskPhase.started }) := by
              intro q hq
              rw [htset] at hq
              rcases List.mem_append.mp hq with h | h
              · exact Or.inl (by
                  rw [htasks]
                  exact List.mem_append.mpr (Or.inl h))
              · rcases List.mem_cons.mp h with h | h
                · exact Or.inr h
                · exact Or.inl (by
                    rw [htasks]
                    exact List.mem_append.mpr
                      (Or.inr (List.mem_cons_of_mem _ h)))
            have htidseq : ((setTask st.tasks tid
                { t with phase := TaskPhase.started }).map (·.1)) =
                st.tasks.map (·.1) := by
              rw [htset, htasks]
              simp [List.map_append]
            have htkeyseq : ((setTask st.tasks tid
                { t with phase := TaskPhase.started }).map (·.2.key)) =
                st.tasks.map (·.2.key) := by
              rw [htset, htasks]
              simp [List.map_append]
            have hotherkey : ∀ q ∈ st.tasks, q ≠ (tid, t) →
                q.2.key ≠ t.key := by
              intro q hq hne hcon
              have hkeysnd := hInv.taskKeys
              rw [htasks] at hkeysnd hq
              rw [List.map_append, List.nodup_append] at hkeysnd
              rcases List.mem_append.mp hq with h | h
              · exact hkeysnd.2.2 (List.mem_map_of_mem _ h)
                  (by rw [hcon]
                      exact List.mem_map_of_mem _ (List.mem_cons_self _ _))
              · rcases List.mem_cons.mp h with h | h
                · exact hne h
                · have hnd := hkeysnd.2.1
                  rw [List.map_cons, List.nodup_cons] at hnd
                  have hm : q.2.key ∈ ts2.map (·.2.key) :=
                    List.mem_map_of_mem _ h
                  rw [hcon] at hm
                  exact hnd.1 hm
            have hfind_other : ∀ k', k' ≠ t.key →
                findEntry (setEntry st.cache t.key
                  { e with status := CacheStatus.generating }) k' =
                findEntry st.cache k' := by
              intro k' hk'
              rw [hset, hcache]
              exact findEntry_decomp_other hk' _ _
            have hfind_here : findEntry (setEntry st.cache t.key
                { e with status := CacheStatus.generating }) t.key =
                some { e with status := CacheStatus.generating } := by
              rw [hset]
              exact findEntry_decomp_here has _
            have htidnd := hInv.tidsNodup
            rw [htasks, List.map_append, List.nodup_append] at htidnd
            have hnotid1 : ∀ r ∈ ts1, r.1 ≠ tid := by
              intro r hr hcon
              exact htidnd.2.2 (List.mem_map_of_mem _ hr)
                (by rw [hcon]
                    exact List.mem_map_of_mem _ (List.mem_cons_self _ _))
            have hnotid2 : ∀ r ∈ ts2, r.1 ≠ tid := by
              intro r hr hcon
              have hnd := htidnd.2.1
              rw [List.map_cons, List.nodup_cons] at hnd
              have hm : r.1 ∈ ts2.map (·.1) := List.mem_map_of_mem _ hr
              rw [hcon] at hm
              exact hnd.1 hm
            refine ⟨⟨hkeys', ?_, heids', ?_, ?_, ?_, ?_, ?_⟩, ?_⟩
            · intro p hp
              rcases hmemc' p hp with h | h
              · exact hInv.eidsBound p h
              · rw [h]
                exact hInv.eidsBound (t.key, e) (by
                  rw [hcache]
                  exact List.mem_append.mpr
                    (Or.inr (List.mem_cons_self _ _)))
            · intro q hq
              rcases hmemt' q hq with h | h
              · exact hInv.tidsBound q h
              · rw [h]
                exact hInv.tidsBound (tid, t) hqt
            · rw [htidseq]
              exact hInv.tidsNodup
            · rw [htkeyseq]
              exact hInv.taskKeys
            · intro q hq hph e0 hfind0
              rcases hmemt' q hq with h | h
              · by_cases hqe : q = (tid, t)
                · exfalso
                  rw [hqe, htset] at hq
                  rcases List.mem_append.mp hq with h1 | h1
                  · exact hnotid1 _ h1 rfl
                  · rcases List.mem_cons.mp h1 with h1 | h1
                    · have hpp : t.phase = TaskPhase.started :=
                        congrArg (fun r => r.2.phase) h1
                      rw [hphase] at hpp
                      exact TaskPhase.noConfusion hpp
                    · exact hnotid2 _ h1 rfl
                · have hkne := hotherkey q h hqe
                  rw [hfind_other q.2.key hkne] at hfind0
                  exact hInv.taskNotStarted q h hph e0 hfind0
              · rw [h] at hph
                exact absurd hph (by simp)
            · intro q hq hph e0 hfind0
              rcases hmemt' q hq with h | h
              · by_cases hqe : q = (tid, t)
                · rw [hqe] at hph
                  exact absurd hph (by simp [hphase])
                · have hkne := hotherkey q h hqe
                  rw [hfind_other q.2.key hkne] at hfind0
                  exact hInv.taskStarted q h hph e0 hfind0
              · have hkeq : q.2.key = t.key := by rw [h]
                rw [hkeq, hfind_here] at hfind0
                have he0 := Option.some.inj hfind0
                rw [← he0]
            · exact stepFacts_of_update hcache hset rfl
                (by rw [hepending]; rfl) rfl hInv.eidsNodup
      · rw [if_neg hphase]
        exact ⟨hInv,
          stepFacts_of_sublist (List.Sublist.refl _) rfl hInv.eidsNodup⟩

end TTSCache

namespace TTSCache

theorem removeTask_mem {ts : List (Nat × GenTask)} {tid : Nat}
    {q : Nat × GenTask} (hq : q ∈ removeTask ts tid) : q ∈ ts ∧ q.1 ≠ tid := by
  have h1 := List.mem_of_mem_filter hq
  have h2 := List.of_mem_filter hq
  refine ⟨h1, ?_⟩
  intro hcon
  rw [decide_eq_true_eq] at h2
  exact h2 (by simp [hcon])

theorem finishUpdate_preserves (st : CacheState) (tid : Nat) (t : GenTask)
    (e e' : TTSCacheEntry) (hInv : Inv st)
    (hqt : (tid, t) ∈ st.tasks)
    (hfe : findEntry st.cache t.key = some e)
    (heid : e'.eid = e.eid)
    (hstep : stepOk e.status e'.status = true) :
    Inv { st with cache := setEntry st.cache t.key e',
                  tasks := removeTask st.tasks tid } ∧
    StepFacts st { st with cache := setEntry st.cache t.key e',
                           tasks := removeTask st.tasks tid } := by
  rcases setEntry_decomp hInv.keysNodup hfe e' with
    ⟨as, bs, hcache, hset, has, hbs⟩
  have hkeyseq : (setEntry st.cache t.key e').map (·.1) =
      st.cache.map (·.1) := by
    rw [hset, hcache]
    simp [List.map_append]
  have heidseq : (setEntry st.cache t.key e').map (·.2.eid) =
      st.cache.map (·.2.eid) := by
    rw [hset, hcache]
    simp [List.map_append, heid]
  have hmemc' : ∀ p ∈ setEntry st.cache t.key e',
      p ∈ st.cache ∨ p = (t.key, e') := by
    intro p hp
    rw [hset] at hp
    rcases List.mem_append.mp hp with h | h
    · exact Or.inl (by
        rw [hcache]
        exact List.mem_append.mpr (Or.inl h))
    · rcases List.mem_cons.mp h with h | h
      · exact Or.inr h
      · exact Or.inl (by
          rw [hcache]
          exact List.mem_append.mpr (Or.inr (List.mem_cons_of_mem _ h)))
  have hfind_other : ∀ k', k' ≠ t.key →
      findEntry (setEntry st.cache t.key e') k' = findEntry st.cache k' := by
    intro k' hk'
    rw [hset, hcache]
    exact findEntry_decomp_other hk' _ _
  have hkeyinj : ∀ q ∈ st.tasks, q.2.key = t.key → q = (tid, t) := by
    intro q hq hkeq
    exact List.inj_on_of_nodup_map hInv.taskKeys hq hqt hkeq
  have hsubt := removeTask_sublist st.tasks tid
  refine ⟨⟨?_, ?_, ?_, ?_, ?_, ?_, ?_, ?_⟩, ?_⟩
  · show ((setEntry st.cache t.key e').map (·.1)).Nodup
    rw [hkeyseq]
    exact hInv.keysNodup
  · intro p hp
    rcases hmemc' p hp with h | h
    · exact hInv.eidsBound p h
    · rw [h]
      show e'.eid < st.nextEid
      rw [heid]
      exact hInv.eidsBound (t.key, e) (by
        rw [hcache]
        exact List.mem_append.mpr (Or.inr (List.mem_cons_self _ _)))
  · show ((setEntry st.cache t.key e').map (·.2.eid)).Nodup
    rw [heidseq]
    exact hInv.eidsNodup
  · intro q hq
    exact hInv.tidsBound q (hsubt.subset hq)
  · exact List.Nodup.sublist (hsubt.map (·.1)) hInv.tidsNodup
  · exact List.Nodup.sublist (hsubt.map (·.2.key)) hInv.taskKeys
  · intro q hq hph e0 hfind0
    rcases removeTask_mem hq with ⟨hqm, hqtid⟩
    by_cases hkeq : q.2.key = t.key
    · exact absurd (by rw [hkeyinj q hqm hkeq]) hqtid
    · rw [hfind_other q.2.key hkeq] at hfind0
      exact hInv.taskNotStarted q hqm hph e0 hfind0
  · intro q hq hph e0 hfind0
    rcases removeTask_mem hq with ⟨hqm, hqtid⟩
    by_cases hkeq : q.2.key = t.key
    · exact absurd (by rw [hkeyinj q hqm hkeq]) hqtid
    · rw [hfind_other q.2.key hkeq] at hfind0
      exact hInv.taskStarted q hqm hph e0 hfind0
  · exact stepFacts_of_update hcache hset heid hstep rfl hInv.eidsNodup

theorem taskFinish_preserves (st : CacheState) (tid : Nat) (now : ℚ)
    (hInv : Inv st) :
    Inv (taskFinish st tid now) ∧ StepFacts st (taskFinish st tid now) := by
  cases hft : findTask st.tasks tid with
  | none =>
      simp only [taskFinish, hft]
      exact ⟨hInv,
        stepFacts_of_sublist (List.Sublist.refl _) rfl hInv.eidsNodup⟩
  | some t =>
      simp only [taskFinish, hft]
      by_cases hphase : t.phase = TaskPhase.started
      · rw [if_pos hphase]
        have hqt : (tid, t) ∈ st.tasks :=
          (findTask_eq_some_iff hInv.tidsNodup).mp hft
        cases hfe : findEntry st.cache t.key with
        | none =>
            simp only [hfe]
            have hsubt := removeTask_sublist st.tasks tid
            exact ⟨⟨hInv.keysNodup, hInv.eidsBound, hInv.eidsNodup,
              fun q hq => hInv.tidsBound q (hsubt.subset hq),
              List.Nodup.sublist (hsubt.map (·.1)) hInv.tidsNodup,
              List.Nodup.sublist (hsubt.map (·.2.key)) hInv.taskKeys,
              fun q hq => hInv.taskNotStarted q (hsubt.subset hq),
              fun q hq => hInv.taskStarted q (hsubt.subset hq)⟩,
              stepFacts_of_sublist (List.Sublist.refl _) rfl hInv.eidsNodup⟩
        | some e =>
            simp only [hfe]
            have hegen : e.status = CacheStatus.generating :=
              hInv.taskStarted (tid, t) hqt hphase e hfe
            cases hout : t.outcome with
            | ok audio =>
                simp only [hout]
                exact finishUpdate_preserves st tid t e
                  { e with audio := some audio,
                           status := CacheStatus.completed,
                           completed_at := some now, event_set := true }
                  hInv hqt hfe rfl (by rw [hegen]; rfl)
            | error msg =>
                simp only [hout]
                exact finishUpdate_preserves st tid t e
                  { e with status := CacheStatus.failed,
                           error := some msg, event_set := true }
                  hInv hqt hfe rfl (by rw [hegen]; rfl)
      · rw [if_neg hphase]
        exact ⟨hInv,
          stepFacts_of_sublist (List.Sublist.refl _) rfl hInv.eidsNodup⟩

theorem cleanup_preserves (cfg : CacheConfig) (st : CacheState) (now : ℚ)
    (hInv : Inv st) :
    Inv (cleanup_expired cfg st now) ∧
    StepFacts st (cleanup_expired cfg st now) := by
  have hsub : (st.cache.filter
      (fun p => ¬ (cfg.ttl < now - p.2.created_at))).Sublist st.cache :=
    List.filter_sublist st.cache
  refine ⟨⟨List.Nodup.sublist (hsub.map (·.1)) hInv.keysNodup,
    fun p hp => hInv.eidsBound p (hsub.subset hp),
    List.Nodup.sublist (hsub.map (·.2.eid)) hInv.eidsNodup,
    hInv.tidsBound, hInv.tidsNodup, hInv.taskKeys, ?_, ?_⟩,
    stepFacts_of_sublist hsub rfl hInv.eidsNodup⟩
  · intro q hq hph e0 hfind0
    exact hInv.taskNotStarted q hq hph e0
      (findEntry_filter_some hInv.keysNodup hfind0)
  · intro q hq hph e0 hfind0
    exact hInv.taskStarted q hq hph e0
      (findEntry_filter_some hInv.keysNodup hfind0)

theorem applyAction_step (cfg : CacheConfig) (st : CacheState)
    (a : CacheAction) (hInv : Inv st) (hok : actionOk cfg st a = true) :
    Inv (applyAction cfg st a) ∧ StepFacts st (applyAction cfg st a) := by
  cases a with
  | submitStep text model now outcome =>
      have hok' : hasKey st.cache (generate_cache_key text model) = true ∨
          hasTaskFor st.tasks (generate_cache_key text model) = false := by
        by_cases hk : hasKey st.cache (generate_cache_key text model) = true
        · exact Or.inl hk
        · right
          cases htf : hasTaskFor st.tasks (generate_cache_key text model) with
          | false => rfl
          | true =>
              exfalso
              rw [Bool.not_eq_true] at hk
              simp [actionOk, hk, htf] at hok
      exact submit_preserves cfg st text model now outcome hInv hok'
  | getStep text model gim now outcome =>
      have hok' : gim = false ∨
          hasKey st.cache (generate_cache_key text model) = true ∨
          hasTaskFor st.tasks (generate_cache_key text model) = false := by
        cases gim with
        | false => exact Or.inl rfl
        | true =>
            right
            by_cases hk : hasKey st.cache (generate_cache_key text model) = true
            · exact Or.inl hk
            · right
              cases htf : hasTaskFor st.tasks
                  (generate_cache_key text model) with
              | false => rfl
              | true =>
                  exfalso
                  rw [Bool.not_eq_true] at hk
                  simp [actionOk, hk, htf] at hok
      exact get_phase1_preserves cfg st text model gim now outcome hInv hok'
  | startStep tid => exact taskStart_preserves st tid hInv
  | finishStep tid now => exact taskFinish_preserves st tid now hInv
  | sweepStep now => exact cleanup_preserves cfg st now hInv

theorem histOk (cfg : CacheConfig) (acts : List CacheAction) :
    ∀ s : CacheState, Inv s → traceOk cfg s acts = true → ∀ eid : Nat,
    (∀ s1, statusOfEid eid s = some s1 →
      ∃ rest, statusHistory eid (states cfg s acts) = s1 :: rest ∧
        chainFrom s1 rest = true) ∧
    (statusOfEid eid s = none → eid < s.nextEid →
      statusHistory eid (states cfg s acts) = []) ∧
    (statusOfEid eid s = none → s.nextEid ≤ eid →
      statusChainOk (statusHistory eid (states cfg s acts)) = true) := by
  induction acts with
  | nil =>
      intro s _ _ eid
      refine ⟨?_, ?_, ?_⟩
      · intro s1 h
        exact ⟨[], by simp [statusHistory, states, h], rfl⟩
      · intro h _
        simp [statusHistory, states, h]
      · intro h _
        simp [statusHistory, states, h, statusChainOk]
  | cons a acts ih =>
      intro s hInv htr eid
      simp only [traceOk, Bool.and_eq_true] at htr
      obtain ⟨hok, htr'⟩ := htr
      obtain ⟨hInv', hfacts⟩ := applyAction_step cfg s a hInv hok
      have ihs := ih (applyAction cfg s a) hInv' htr'
      refine ⟨?_, ?_, ?_⟩
      · intro s1 h
        have hhist : statusHistory eid (states cfg s (a :: acts)) =
            s1 :: statusHistory eid (states cfg (applyAction cfg s a) acts) := by
          simp [statusHistory, states, List.filterMap_cons, h]
        cases h' : statusOfEid eid (applyAction cfg s a) with
        | some s2 =>
            have hstep := hfacts.statusStep eid s1 s2 h h'
            obtain ⟨rest', hh', hch'⟩ := (ihs eid).1 s2 h'
            refine ⟨s2 :: rest', by rw [hhist, hh'], ?_⟩
            simp [chainFrom, hstep, hch']
        | none =>
            have hlow : eid < s.nextEid := by
              rcases (statusOfEid_some_iff hInv.eidsNodup).mp h with
                ⟨p, hpm, hpe, _⟩
              rw [← hpe]
              exact hInv.eidsBound p hpm
            have hlow' : eid < (applyAction cfg s a).nextEid :=
              lt_of_lt_of_le hlow hfacts.nextEid_mono
            exact ⟨[], by rw [hhist, (ihs eid).2.1 h' hlow'], rfl⟩
      · intro h hlow
        have hhist : statusHistory eid (states cfg s (a :: acts)) =
            statusHistory eid (states cfg (applyAction cfg s a) acts) := by
          simp [statusHistory, states, List.filterMap_cons, h]
        have h' := hfacts.absentLow eid h hlow
        have hlow' := lt_of_lt_of_le hlow hfacts.nextEid_mono
        rw [hhist]
        exact (ihs eid).2.1 h' hlow'
      · intro h hhigh
        have hhist : statusHistory eid (states cfg s (a :: acts)) =
            statusHistory eid (states cfg (applyAction cfg s a) acts) := by
          simp [statusHistory, states, List.filterMap_cons, h]
        rw [hhist]
        cases h' : statusOfEid eid (applyAction cfg s a) with
        | some s2 =>
            have hpend := hfacts.freshPending eid s2 h h'
            obtain ⟨rest', hh', hch'⟩ := (ihs eid).1 s2 h'
            rw [hh']
            rw [hpend] at hch' ⊢
            simp [statusChainOk, hch']
        | none =>
            rcases Nat.lt_or_ge eid (applyAction cfg s a).nextEid with hl | hg
            · rw [(ihs eid).2.1 h' hl]
              rfl
            · exact (ihs eid).2.2 h' hg

theorem Inv_empty : Inv ({} : CacheState) := by
  constructor <;> simp

end TTSCache

namespace TTSCache

/-- C2, counterexample to the claim as stated: the status transition
discipline is not maintained under every interleaving of submit, get, the
generation task, the sweeper and size eviction.  In the run below (at
`max_size = 1`), `submit "t"` spawns generation task 0; a `submit "u"`
size-evicts the entry; a later `submit "t"` re-creates the key as a fresh
pending entry object while task 0 is still alive; task 0's completion
section then looks the key up again and writes `completed` into the new
object (skipping `generating`), and task 2's first critical section
subsequently stamps the same object `generating`.  The object's status
history is pending → completed → generating, which violates the claimed
pending → generating → terminal order and overwrites a terminal status. -/
theorem entry_status_not_sticky :
    statusHistory 2 (states { max_size := 1, ttl := 1000 } {}
      [CacheAction.submitStep "t" "m" 0 (Except.ok [1]),
       CacheAction.startStep 0,
       CacheAction.submitStep "u" "m" 1 (Except.ok [2]),
       CacheAction.submitStep "t" "m" 2 (Except.ok [3]),
       CacheAction.finishStep 0 3,
       CacheAction.startStep 2]) =
      [CacheStatus.pending, CacheStatus.completed,
       CacheStatus.generating] ∧
    statusChainOk [CacheStatus.pending, CacheStatus.completed,
      CacheStatus.generating] = false := by
  constructor
  · set_option maxRecDepth 100000 in decide
  · rfl

/-- C2 (amended): provided no step inserts a new entry for a key while a
`_generate` task spawned for an earlier entry under that key is still alive
(`traceOk`), every entry object's status history along a run from the empty
manager state is a prefix of pending → generating → (completed or failed);
in particular a terminal status, once reached, never changes. -/
theorem entry_status_lifecycle (cfg : CacheConfig) (acts : List CacheAction)
    (htr : traceOk cfg {} acts = true) (eid : Nat) :
    statusChainOk (statusHistory eid (states cfg {} acts)) = true :=
  (histOk cfg acts {} Inv_empty htr eid).2.2 rfl (Nat.zero_le eid)

/-- Concrete run exercising `entry_status_lifecycle`: a submit, the two
critical sections of its generation task, and a hitting get, on the real
SHA-256 keys. -/
theorem entry_status_lifecycle_witness :
    traceOk {} {} [CacheAction.submitStep "t" "m" 0 (Except.ok [1]),
      CacheAction.startStep 0, CacheAction.finishStep 0 1,
      CacheAction.getStep "t" "m" true 2 (Except.ok [3])] = true ∧
    statusChainOk (statusHistory 0 (states {} {}
      [CacheAction.submitStep "t" "m" 0 (Except.ok [1]),
       CacheAction.startStep 0, CacheAction.finishStep 0 1,
       CacheAction.getStep "t" "m" true 2 (Except.ok [3])])) = true :=
  ⟨by set_option maxRecDepth 100000 in decide,
   entry_status_lifecycle {} _ (by set_option maxRecDepth 100000 in decide) 0⟩

end TTSCache
